import Mathlib

/-!
Verification development for the RAG (retrieval-augmented generation) engine of
the repository: the incremental index builder (core/rag_builder.py), the hybrid
retriever with reciprocal rank fusion (core/tools/rag_search.py), the bounded
answer loop (core/langgraph_agent.py) and the in-memory chat history store
(core/history.py) are modelled as executable Lean definitions, and the
properties stated in the specification are settled against them.
-/

namespace RagSpec

/-! ## Data model

Chunk mirrors what core/rag_builder.py stores per vector-db entry: the id
string built as url plus a hash sign plus the chunk index, and the metadata
dict with keys page_url, content_hash and chunk_text.  The embedding vector is
modelled over the rationals. -/

structure Chunk where
  id : String
  pageUrl : String
  contentHash : String
  chunkText : String
  embedding : List ℚ
deriving DecidableEq, Repr

/-- Values stored in a Python dict returned by build_rag_from_path: either a
string or an integer. -/
inductive PyVal where
  | str : String → PyVal
  | int : Int → PyVal
deriving DecidableEq, Repr

/-- The persisted BM25 bundle that _build_and_save_bm25_index pickles: the
ordered chunk-id list and the ordered raw-text list (the BM25Okapi scoring
structure itself lives in the external rank_bm25 library and carries no data
the claims mention beyond these two aligned lists). -/
structure BM25Data where
  corpusIds : List String
  corpusChunks : List String
deriving DecidableEq, Repr

/-- External collaborators of the builder, as functions.  crawl models
scraper.get_all_page_urls; fetch models scraper.scrape_dynamic_content, which
catches every scraping exception and returns the empty string on failure;
sha256 models hashlib.sha256(...).hexdigest(), a deterministic pure function;
encode and decode model the tiktoken cl100k_base tokenizer; embedBatch models
the batched OpenAI embeddings call, which can fail with an API error that the
builder does not catch. -/
structure BuildEnv where
  crawl : String → List String
  fetch : String → String
  sha256 : String → String
  encode : String → List Nat
  decode : List Nat → String
  embedBatch : List String → Except String (List (List ℚ))

/-- Model of the Python str.strip() call: drop whitespace characters from both
ends (the source only ever compares the stripped string against emptiness, for
which this character-level model is exact). -/
def str_strip (s : String) : String :=
  String.mk (((s.data.dropWhile Char.isWhitespace).reverse.dropWhile Char.isWhitespace).reverse)

/-- Model of the Python str.lower() call, character by character. -/
def str_lower (s : String) : String :=
  String.mk (s.data.map Char.toLower)

/-! ## Chunker (rag_builder._split_text_into_chunks) -/

def CHUNK_SIZE : Nat := 512
def CHUNK_OVERLAP : Nat := 50

/-- Start offsets produced by the Python range(0, n, step) call used by the
chunker: the values i * step for i below the ceiling of n / step. -/
def chunk_starts (n step : Nat) : List Nat :=
  (List.range ((n + step - 1) / step)).map (fun i => i * step)

/-- Model of rag_builder._split_text_into_chunks: encode the text, slide a
window of CHUNK_SIZE tokens advancing by CHUNK_SIZE - CHUNK_OVERLAP, decode
each window. -/
def split_text_into_chunks (env : BuildEnv) (text : String) : List String :=
  let tokens := env.encode text
  (chunk_starts tokens.length (CHUNK_SIZE - CHUNK_OVERLAP)).map
    (fun i => env.decode ((tokens.drop i).take CHUNK_SIZE))

/-! ## Vector store operations (rag_builder) -/

/-- Model of rag_builder._delete_vectors_by_url: drop every chunk whose
page_url is in the given list. -/
def delete_vectors_by_url (db : List Chunk) (urls : List String) : List Chunk :=
  db.filter (fun c => decide (c.pageUrl ∉ urls))

/-- Model of rag_builder._upsert_vectors_to_db: per id, replace an existing
entry or append a new one (the ChromaDB upsert contract). -/
def upsert_vectors_to_db (db : List Chunk) (newChunks : List Chunk) : List Chunk :=
  newChunks.foldl
    (fun acc c =>
      if acc.any (fun o => o.id == c.id) then
        acc.map (fun o => if o.id == c.id then c else o)
      else acc ++ [c])
    db

/-- Model of rag_builder._get_all_pages_from_db: the deduplicated page_url
values of all stored chunks. -/
def get_all_pages_from_db (db : List Chunk) : List String :=
  (db.map (fun c => c.pageUrl)).dedup

/-! ## Keyword index rebuild (rag_builder._build_and_save_bm25_index) -/

/-- The fresh corpus the BM25 rebuild would persist: none when the vector db
is empty or no chunk has nonblank text (in the source those branches return
early and leave the previous pickle untouched). -/
def bm25_corpus (db : List Chunk) : Option BM25Data :=
  if db.isEmpty then none
  else
    let valid := db.filter (fun c => decide (str_strip c.chunkText ≠ ""))
    if valid.isEmpty then none
    else some ⟨valid.map (fun c => c.id), valid.map (fun c => c.chunkText)⟩

/-- Model of rag_builder._build_and_save_bm25_index: persist the fresh corpus
when one is produced, otherwise keep the old persisted bundle. -/
def build_and_save_bm25_index (db : List Chunk) (old : Option BM25Data) : Option BM25Data :=
  match bm25_corpus db with
  | some fresh => some fresh
  | none => old

/-! ## The build loop (rag_builder.build_rag_from_path) -/

/-- The new chunk records a processed page upserts: ids are url plus a hash
sign plus the chunk position, metadata carries page_url, content_hash and
chunk_text, embeddings come from the batched embedding call. -/
def page_chunks (url contentHash : String) (chunks : List String)
    (embeddings : List (List ℚ)) : List Chunk :=
  ((List.range chunks.length).zip (chunks.zip embeddings)).map
    (fun q => Chunk.mk (url ++ "#" ++ toString q.1) url contentHash q.2.1 q.2.2)

/-- The pages_to_delete list computed at the top of build_rag_from_path: urls
present in the vector db but absent from the fresh crawl. -/
def pages_to_delete (db0 : List Chunk) (crawled : List String) : List String :=
  (get_all_pages_from_db db0).filter (fun u => decide (u ∉ crawled))

/-- The per-page loop of build_rag_from_path over the crawled url list,
threading the vector db and the processed and skipped counters.  An embedding
failure is not caught in the source, so it aborts the whole loop. -/
def process_pages (env : BuildEnv) :
    List Chunk → Nat → Nat → List String → Except String (List Chunk × Nat × Nat)
  | db, processed, skipped, [] => .ok (db, processed, skipped)
  | db, processed, skipped, url :: rest =>
    let text := env.fetch url
    if str_strip text = "" then
      process_pages env db processed skipped rest
    else
      let contentHash := env.sha256 text
      let matched :=
        match db.find? (fun c => c.pageUrl == url) with
        | some c => c.contentHash == contentHash
        | none => false
      if matched then
        process_pages env db processed (skipped + 1) rest
      else
        let chunks := split_text_into_chunks env text
        match env.embedBatch chunks with
        | .error e => .error e
        | .ok embeddings =>
          let db1 :=
            if (db.find? (fun c => c.pageUrl == url)).isSome then
              delete_vectors_by_url db [url]
            else db
          let db2 := upsert_vectors_to_db db1 (page_chunks url contentHash chunks embeddings)
          process_pages env db2 (processed + 1) skipped rest

/-- Everything observable at the end of one build invocation: the returned
dict, the vector db state, the persisted BM25 bundle, and the values of the
three local counters that the source interpolates into the message string. -/
structure BuildOutput where
  result : List (String × PyVal)
  db : List Chunk
  bm25 : Option BM25Data
  processedCount : Nat
  skippedCount : Nat
  deletedCount : Nat
deriving DecidableEq, Repr

def error_message (siteUrl : String) : String :=
  "지정된 URL " ++ siteUrl ++ "에서 페이지를 찾을 수 없습니다."

def success_message (processed skipped deleted : Nat) : String :=
  "RAG 인덱스 빌드 완료. 처리: " ++ toString processed ++ "개, 변경 없음: "
    ++ toString skipped ++ "개, 삭제: " ++ toString deleted ++ "개."

/-- Model of rag_builder.build_rag_from_path: crawl, return the error dict on
an empty crawl, delete the stale pages, run the per-page loop, rebuild the
BM25 bundle, and return the success dict whose message interpolates the
counters. -/
def build_rag_from_path (env : BuildEnv) (siteUrl : String) (db0 : List Chunk)
    (bm0 : Option BM25Data) : Except String BuildOutput :=
  let all_page_urls := env.crawl siteUrl
  if all_page_urls.isEmpty then
    .ok ⟨[("status", PyVal.str "error"), ("message", PyVal.str (error_message siteUrl))],
      db0, bm0, 0, 0, 0⟩
  else
    let toDelete := pages_to_delete db0 all_page_urls
    let db1 :=
      if toDelete.isEmpty then db0
      else delete_vectors_by_url db0 toDelete
    match process_pages env db1 0 0 all_page_urls with
    | .error e => .error e
    | .ok (db2, processed, skipped) =>
      .ok ⟨[("status", PyVal.str "success"),
            ("message", PyVal.str (success_message processed skipped toDelete.length))],
        db2, build_and_save_bm25_index db2 bm0, processed, skipped, toDelete.length⟩

/-! ## Hybrid retrieval and reciprocal rank fusion
(core/tools/rag_search.py, RagSearchTool) -/

/-- One accumulation step of the Python scores dict: a missing doc id is
inserted at the end with the contribution, an existing one has the
contribution added in place (dict insertion order preserved). -/
def add_score (scores : List (String × ℚ)) (docId : String) (v : ℚ) :
    List (String × ℚ) :=
  if scores.any (fun p => p.1 == docId) then
    scores.map (fun p => if p.1 == docId then (p.1, p.2 + v) else p)
  else scores ++ [(docId, v)]

/-- The inner loop of _reciprocal_rank_fusion over one ranked result list:
enumerate from rank 1 and add 1 / (k + rank) per item. -/
def rrf_add_list (k : ℚ) : List (String × ℚ) → Nat → List (String × ℚ) → List (String × ℚ)
  | scores, _, [] => scores
  | scores, rank, (docId, _score) :: rest =>
    rrf_add_list k (add_score scores docId (1 / (k + (rank : ℚ)))) (rank + 1) rest

/-- Descending insertion by fused score, modelling the comparison done by
sorted(..., key=score, reverse=True).  Tie order among equal scores is not
relied on by any claim. -/
def insert_desc (x : String × ℚ) : List (String × ℚ) → List (String × ℚ)
  | [] => [x]
  | y :: ys => if y.2 < x.2 then x :: y :: ys else y :: insert_desc x ys

/-- Sort the (doc id, fused score) pairs by descending score. -/
def sort_by_score_desc (l : List (String × ℚ)) : List (String × ℚ) :=
  l.foldr insert_desc []

/-- Model of RagSearchTool._reciprocal_rank_fusion: accumulate 1 / (k + rank)
contributions per doc id across all result lists, then sort by descending
summed score. -/
def reciprocal_rank_fusion (result_sets : List (List (String × ℚ))) (k : ℚ) :
    List (String × ℚ) :=
  sort_by_score_desc
    (result_sets.foldl (fun sc results => rrf_add_list k sc 1 results) [])

/-- The ranking portion of RagSearchTool.execute: fuse the vector and keyword
lists with k = 60 and keep the first n_results doc ids. -/
def execute_rank (vec kw : List (String × ℚ)) (n_results : Nat) : List String :=
  let fused_results := reciprocal_rank_fusion [vec, kw] 60
  (fused_results.take n_results).map (fun p => p.1)

/-- Fused score that the fusion assigns to a doc id: the value stored with the
first matching entry, 0 when absent. -/
def score_of (l : List (String × ℚ)) (docId : String) : ℚ :=
  match l.find? (fun p => p.1 == docId) with
  | some p => p.2
  | none => 0

/-- Total contribution a single ranked list gives a doc id when enumeration
starts at the given rank: one 1 / (k + rank) term per occurrence. -/
def list_contrib (k : ℚ) : Nat → List (String × ℚ) → String → ℚ
  | _, [], _ => 0
  | rank, p :: rest, docId =>
    if p.1 = docId then 1 / (k + (rank : ℚ)) + list_contrib k (rank + 1) rest docId
    else list_contrib k (rank + 1) rest docId

/-- The contribution formula as the specification words it: 1 / (60 + rank)
with rank the 1-based position of the doc id in the list, 0 when the list
omits the id. -/
def claim_contrib (l : List (String × ℚ)) (docId : String) : ℚ :=
  if docId ∈ l.map Prod.fst then
    1 / (60 + (((l.map Prod.fst).indexOf docId : ℕ) : ℚ) + 1)
  else 0

/-- Pairwise descending order on fused scores. -/
def SortedDesc (l : List (String × ℚ)) : Prop :=
  l.Pairwise (fun a b => b.2 ≤ a.2)

/-! ## Answer loop (core/langgraph_agent.py)

The LangGraph state channels of GraphState are plain TypedDict fields, so a
value returned by a node replaces the previous channel value.  Each node is
modelled as a function from the state to the updated state; the language-model
calls inside the nodes are oracles supplied by LoopEnv, each a function of the
full current state (the most general deterministic collaborator). -/

structure Msg where
  role : String
  content : String
deriving DecidableEq, Repr

/-- GraphState of core/langgraph_agent.py.  Fields that the Python dict leaves
absent before first assignment are initialised to the defaults the nodes read
via state.get. -/
structure GState where
  question : String
  documents : List String
  generation : String
  grade : String
  iterations : Nat
  chatHistory : List Msg
  isNewTopic : Bool
deriving DecidableEq, Repr

/-- Oracles for the external language-model calls made by the nodes.
topicJudge, genResult, gradeResult and rewriteResult return the raw content
string of the chat completion; retrieveResult returns the pair that
RagSearchTool.execute returns (formatted evidence string, document count). -/
structure LoopEnv where
  topicJudge : GState → String
  retrieveResult : GState → String × Nat
  genResult : GState → String
  gradeResult : GState → String
  rewriteResult : GState → String

/-- Boolean prefix test on character lists. -/
def chars_le : List Char → List Char → Bool
  | [], _ => true
  | _ :: _, [] => false
  | a :: as, b :: bs => a == b && chars_le as bs

/-- Boolean substring test on character lists, modelling the Python membership
test on strings. -/
def has_sub (needle : List Char) : List Char → Bool
  | [] => needle.isEmpty
  | b :: t => chars_le needle (b :: t) || has_sub needle t

/-- Model of the Python expression needle in hay for strings. -/
def py_in (needle hay : String) : Bool :=
  has_sub needle.toList hay.toList

/-- Model of classify_topic_node: with no history the turn is a new topic;
otherwise the judge content is checked for the substring no after
lowercasing. -/
def classify_topic_node (env : LoopEnv) (st : GState) : GState :=
  if st.chatHistory = [] then { st with isNewTopic := true }
  else if py_in "no" (str_lower (env.topicJudge st)) then { st with isNewTopic := true }
  else { st with isNewTopic := false }

/-- Model of retrieve_documents_node: the documents channel receives the
one-element list holding the formatted evidence string, and the iterations
counter is incremented by one. -/
def retrieve_documents_node (env : LoopEnv) (st : GState) : GState :=
  let documents_string := (env.retrieveResult st).1
  { st with documents := [documents_string], iterations := st.iterations + 1 }

/-- Model of generate_answer_node: only the generation channel changes. -/
def generate_answer_node (env : LoopEnv) (st : GState) : GState :=
  { st with generation := env.genResult st }

/-- Model of grade_answer_node: the judge content is checked for the substring
yes after lowercasing, yielding grade useful or not useful. -/
def grade_answer_node (env : LoopEnv) (st : GState) : GState :=
  if py_in "yes" (str_lower (env.gradeResult st)) then { st with grade := "useful" }
  else { st with grade := "not useful" }

/-- Model of rewrite_question_node: the question channel is replaced by the
rewritten query. -/
def rewrite_question_node (env : LoopEnv) (st : GState) : GState :=
  { st with question := env.rewriteResult st }

/-- Model of should_continue: the iteration cap is checked first, then the
grade. -/
def should_continue (st : GState) : String :=
  if st.iterations > 3 then "end"
  else if st.grade = "useful" then "end"
  else "continue"

/-- Result of driving the compiled graph: final state, number of
retrieve-generate-grade cycles executed, and whether the run reached END
through should_continue (false only when the fuel ran out first). -/
structure RunOut where
  final : GState
  cycles : Nat
  ended : Bool
deriving Repr

/-- One retrieve, generate, grade pass of the graph. -/
def run_cycle (env : LoopEnv) (st : GState) : GState :=
  grade_answer_node env (generate_answer_node env (retrieve_documents_node env st))

/-- Drive the loop part of the graph: run a cycle, consult should_continue,
and either stop at END or pass through rewrite back to retrieve.  fuel bounds
the recursion; the termination theorem shows fuel 4 always suffices. -/
def run_cycles (env : LoopEnv) : Nat → GState → RunOut
  | 0, st => ⟨st, 0, false⟩
  | fuel + 1, st =>
    if should_continue (run_cycle env st) = "end" then ⟨run_cycle env st, 1, true⟩
    else
      ⟨(run_cycles env fuel (rewrite_question_node env (run_cycle env st))).final,
        (run_cycles env fuel (rewrite_question_node env (run_cycle env st))).cycles + 1,
        (run_cycles env fuel (rewrite_question_node env (run_cycle env st))).ended⟩

/-- One full turn of run_langgraph_agent: build the initial state from the
question and the loaded history (the other channels start at the defaults the
nodes read), classify the topic, then loop. -/
def run_turn (env : LoopEnv) (question : String) (history : List Msg) (fuel : Nat) : RunOut :=
  run_cycles env fuel (classify_topic_node env ⟨question, [], "", "", 0, history, true⟩)

/-! ## In-memory chat history (core/history.py)

Python lists are mutable heap objects, so the defensive-copy claim about
InMemoryChatHistory.get_messages is about object identity.  The store is
modelled with an explicit heap of message lists addressed by index: the
module-level _chat_histories dict maps a session id to a heap reference, and
the .copy() in get_messages allocates a fresh reference holding the same
messages. -/

structure HistState where
  heap : List (List Msg)
  sessions : List (String × Nat)
deriving Repr

/-- Read the list object behind a heap reference. -/
def heap_read (heap : List (List Msg)) (r : Nat) : List Msg :=
  (heap[r]?).getD []

/-- Mutate the list object behind a heap reference in place. -/
def heap_write (heap : List (List Msg)) (r : Nat) (v : List Msg) : List (List Msg) :=
  heap.set r v

/-- The messages stored for a session: the dict lookup with default empty
list, without any allocation. -/
def read_messages (st : HistState) (sessionId : String) : List Msg :=
  match st.sessions.lookup sessionId with
  | some r => heap_read st.heap r
  | none => []

/-- Model of InMemoryChatHistory.get_messages: look the session up with a
default of the empty list and return a fresh copy, here a newly allocated heap
reference holding the same messages. -/
def get_messages (st : HistState) (sessionId : String) : HistState × Nat :=
  let v := read_messages st sessionId
  (⟨st.heap ++ [v], st.sessions⟩, st.heap.length)

/-- Model of InMemoryChatHistory.add_messages: extend the stored list in
place, creating the session entry first when absent. -/
def add_messages (st : HistState) (sessionId : String) (msgs : List Msg) : HistState :=
  match st.sessions.lookup sessionId with
  | some r => ⟨heap_write st.heap r (heap_read st.heap r ++ msgs), st.sessions⟩
  | none => ⟨st.heap ++ [msgs], st.sessions ++ [(sessionId, st.heap.length)]⟩

/-! ## Lemmas about the answer loop -/

lemma grade_answer_node_iterations (env : LoopEnv) (st : GState) :
    (grade_answer_node env st).iterations = st.iterations := by
  unfold grade_answer_node; split <;> rfl

lemma grade_answer_node_documents (env : LoopEnv) (st : GState) :
    (grade_answer_node env st).documents = st.documents := by
  unfold grade_answer_node; split <;> rfl

lemma run_cycle_iterations (env : LoopEnv) (st : GState) :
    (run_cycle env st).iterations = st.iterations + 1 := by
  unfold run_cycle
  rw [grade_answer_node_iterations]
  rfl

lemma run_cycle_documents (env : LoopEnv) (st : GState) :
    (run_cycle env st).documents
      = [(env.retrieveResult st).1] := by
  unfold run_cycle
  rw [grade_answer_node_documents]
  rfl

lemma classify_topic_node_iterations (env : LoopEnv) (st : GState) :
    (classify_topic_node env st).iterations = st.iterations := by
  unfold classify_topic_node; split <;> [rfl; split <;> rfl]

lemma classify_topic_node_documents (env : LoopEnv) (st : GState) :
    (classify_topic_node env st).documents = st.documents := by
  unfold classify_topic_node; split <;> [rfl; split <;> rfl]

lemma should_continue_ne_end (st : GState) (h : should_continue st ≠ "end") :
    st.iterations ≤ 3 := by
  unfold should_continue at h
  by_contra hgt
  simp only [if_pos (Nat.lt_of_not_le hgt)] at h
  · exact h rfl

lemma run_cycles_bound (env : LoopEnv) :
    ∀ (fuel : Nat) (st : GState), 4 ≤ fuel + st.iterations → 1 ≤ fuel →
      (run_cycles env fuel st).ended = true
        ∧ (run_cycles env fuel st).cycles + st.iterations ≤ max 4 (st.iterations + 1)
  | 0, _, _, hpos => absurd hpos (by omega)
  | fuel + 1, st, hcap, _ => by
    have hiter : (run_cycle env st).iterations = st.iterations + 1 :=
      run_cycle_iterations env st
    simp only [run_cycles]
    by_cases hend : should_continue (run_cycle env st) = "end"
    · rw [if_pos hend]
      exact ⟨rfl, by simp only [RunOut.cycles]; omega⟩
    · have hle : (run_cycle env st).iterations ≤ 3 := should_continue_ne_end _ hend
      have hlt : st.iterations ≤ 2 := by omega
      have hiter2 :
          (rewrite_question_node env (run_cycle env st)).iterations = st.iterations + 1 := by
        simpa [rewrite_question_node] using hiter
      have ih := run_cycles_bound env fuel (rewrite_question_node env (run_cycle env st))
        (by omega) (by omega)
      rw [hiter2] at ih
      rw [if_neg hend]
      exact ⟨ih.1, by simp only [RunOut.cycles]; omega⟩

/-- C1: the answer loop terminates after at most 4 retrieve, generate, grade
cycles: should_continue returns end whenever the iterations counter,
incremented exactly once per retrieve step, exceeds 3, the cap check takes
precedence over the grade check, a grade of useful also returns end, and any
other grade with the cap not exceeded continues to the rewrite state that
loops back to retrieve. -/
theorem claim_C1 (env : LoopEnv) (question : String) (history : List Msg)
    (fuel : Nat) (hfuel : 4 ≤ fuel) :
    ((run_turn env question history fuel).ended = true
      ∧ (run_turn env question history fuel).cycles ≤ 4)
    ∧ (∀ st : GState, 3 < st.iterations → should_continue st = "end")
    ∧ (∀ st : GState, st.grade = "useful" → should_continue st = "end")
    ∧ (∀ st : GState, st.iterations ≤ 3 → st.grade ≠ "useful" →
        should_continue st = "continue")
    ∧ (∀ st : GState, (retrieve_documents_node env st).iterations = st.iterations + 1) := by
  refine ⟨?_, ?_, ?_, ?_, ?_⟩
  · unfold run_turn
    have h0 : (classify_topic_node env ⟨question, [], "", "", 0, history, true⟩).iterations
        = 0 := classify_topic_node_iterations env _
    have := run_cycles_bound env fuel
      (classify_topic_node env ⟨question, [], "", "", 0, history, true⟩)
      (by omega) (by omega)
    rw [h0] at this
    exact ⟨this.1, by omega⟩
  · intro st h
    unfold should_continue
    rw [if_pos h]
  · intro st h
    unfold should_continue
    by_cases hc : st.iterations > 3
    · rw [if_pos hc]
    · rw [if_neg hc, if_pos h]
  · intro st hle hgr
    unfold should_continue
    rw [if_neg (by omega), if_neg hgr]
  · intro st
    rfl

/-- Concrete loop oracles that always grade the draft as not useful. -/
def envC1 : LoopEnv :=
  ⟨fun _ => "no", fun _ => ("d", 1), fun _ => "g", fun _ => "no", fun _ => "q2"⟩

theorem claim_C1_witness :
    4 ≤ 4 ∧ ((run_turn envC1 "q" [] 4).ended = true
      ∧ (run_turn envC1 "q" [] 4).cycles ≤ 4) :=
  ⟨by decide, (claim_C1 envC1 "q" [] 4 (by decide)).1⟩

/-- Concrete loop oracles whose retrieval evidence differs between the first
iteration and later ones, and whose grade is never useful. -/
def envC2 : LoopEnv :=
  ⟨fun _ => "no", fun st => (if st.iterations = 0 then "e1" else "e2", 1),
    fun _ => "g", fun _ => "no", fun _ => "q2"⟩

/-- C2 fails on the code: along the graph path classify, retrieve, generate,
grade, continue, rewrite, retrieve, the documents channel after the second
retrieve holds only the second evidence string; the first evidence string has
been discarded, because a TypedDict channel is replaced, not appended to. -/
theorem claim_C2_counterexample :
    should_continue (grade_answer_node envC2 (generate_answer_node envC2
        (retrieve_documents_node envC2
          (classify_topic_node envC2 ⟨"q", [], "", "", 0, [], true⟩)))) = "continue"
    ∧ (retrieve_documents_node envC2 (rewrite_question_node envC2
        (grade_answer_node envC2 (generate_answer_node envC2
          (retrieve_documents_node envC2
            (classify_topic_node envC2 ⟨"q", [], "", "", 0, [], true⟩)))))).documents
        = ["e2"]
    ∧ "e1" ∉ (retrieve_documents_node envC2 (rewrite_question_node envC2
        (grade_answer_node envC2 (generate_answer_node envC2
          (retrieve_documents_node envC2
            (classify_topic_node envC2 ⟨"q", [], "", "", 0, [], true⟩)))))).documents := by
  decide

lemma run_cycles_documents_len (env : LoopEnv) :
    ∀ (fuel : Nat) (st : GState),
      (run_cycles env fuel st).final.documents.length ≤ max st.documents.length 1
  | 0, _ => le_max_left _ _
  | fuel + 1, st => by
    simp only [run_cycles]
    by_cases hend : should_continue (run_cycle env st) = "end"
    · rw [if_pos hend]
      have := run_cycle_documents env st
      simp [this]
    · rw [if_neg hend]
      have ih := run_cycles_documents_len env fuel (rewrite_question_node env (run_cycle env st))
      have hdocs : (rewrite_question_node env (run_cycle env st)).documents
          = [(env.retrieveResult st).1] := by
        simpa [rewrite_question_node] using run_cycle_documents env st
      rw [hdocs] at ih
      exact le_trans (by simpa using ih) (le_max_right _ _)

/-- C2 amended: each retrieve step replaces the documents channel with the
one-element list holding that retrieval's formatted evidence string and
increments the iterations counter; consequently at no point does the state
hold evidence of more than the latest retrieval, and evidence of earlier
iterations is discarded rather than accumulated. -/
theorem claim_C2_amended (env : LoopEnv) (st : GState) :
    (retrieve_documents_node env st).documents = [(env.retrieveResult st).1]
    ∧ (retrieve_documents_node env st).iterations = st.iterations + 1
    ∧ (∀ (question : String) (history : List Msg) (fuel : Nat),
        (run_turn env question history fuel).final.documents.length ≤ 1) := by
  refine ⟨rfl, rfl, ?_⟩
  intro question history fuel
  unfold run_turn
  have h0 : (classify_topic_node env ⟨question, [], "", "", 0, history, true⟩).documents
      = [] := classify_topic_node_documents env _
  have := run_cycles_documents_len env fuel
    (classify_topic_node env ⟨question, [], "", "", 0, history, true⟩)
  rw [h0] at this
  simpa using this

/-! ## Lemmas about the history store -/

lemma lookup_mem {l : List (String × Nat)} {k : String} {v : Nat}
    (h : l.lookup k = some v) : (k, v) ∈ l := by
  induction l with
  | nil => simp [List.lookup] at h
  | cons p t ih =>
    obtain ⟨k', v'⟩ := p
    rw [List.lookup] at h
    by_cases hk : k = k'
    · subst hk
      simp only [beq_self_eq_true] at h
      obtain rfl : v' = v := by simpa using h
      exact List.mem_cons_self _ _
    · have hbeq : (k == k') = false := beq_false_of_ne hk
      rw [hbeq] at h
      exact List.mem_cons_of_mem _ (ih h)

/-- C10: InMemoryChatHistory.get_messages hands back a defensive copy: the
value read through the returned reference equals the stored history, mutating
the object behind the returned reference leaves every stored session history
unchanged, and a session id with no stored history yields the empty list
rather than a failure. -/
theorem claim_C10 (st : HistState) (sessionId : String) (mutated : List Msg)
    (hwf : ∀ p ∈ st.sessions, p.2 < st.heap.length) :
    heap_read (get_messages st sessionId).1.heap (get_messages st sessionId).2
      = read_messages st sessionId
    ∧ (∀ sid : String,
        read_messages
          ⟨heap_write (get_messages st sessionId).1.heap (get_messages st sessionId).2 mutated,
            (get_messages st sessionId).1.sessions⟩ sid
          = read_messages st sid)
    ∧ (st.sessions.lookup sessionId = none →
        heap_read (get_messages st sessionId).1.heap (get_messages st sessionId).2 = []) := by
  have hcopy :
      heap_read (get_messages st sessionId).1.heap (get_messages st sessionId).2
        = read_messages st sessionId := by
    show heap_read (st.heap ++ [read_messages st sessionId]) st.heap.length
      = read_messages st sessionId
    unfold heap_read
    rw [List.getElem?_concat_length]
    rfl
  refine ⟨hcopy, ?_, ?_⟩
  · intro sid
    show (match st.sessions.lookup sid with
      | some r =>
          heap_read (heap_write (st.heap ++ [read_messages st sessionId]) st.heap.length mutated) r
      | none => []) = read_messages st sid
    unfold read_messages
    cases hl : st.sessions.lookup sid with
    | none => rfl
    | some r =>
      have hr : r < st.heap.length := hwf _ (lookup_mem hl)
      show heap_read (heap_write (st.heap ++ [read_messages st sessionId]) st.heap.length mutated) r
        = heap_read st.heap r
      unfold heap_read heap_write
      rw [List.getElem?_set_ne (by omega), List.getElem?_append, if_pos hr]
  · intro hnone
    rw [hcopy]
    unfold read_messages
    rw [hnone]

/-- A concrete history store with one session holding one message, stored at
heap reference 0. -/
def histW : HistState :=
  ⟨[[⟨"user", "hi"⟩]], [("s1", 0)]⟩

theorem claim_C10_witness :
    (∀ p ∈ histW.sessions, p.2 < histW.heap.length)
    ∧ heap_read (get_messages histW "s1").1.heap (get_messages histW "s1").2
        = read_messages histW "s1"
    ∧ read_messages
        ⟨heap_write (get_messages histW "s1").1.heap (get_messages histW "s1").2 [⟨"user", "x"⟩],
          (get_messages histW "s1").1.sessions⟩ "s1"
        = read_messages histW "s1" :=
  have h := claim_C10 histW "s1" [⟨"user", "x"⟩] (by decide)
  ⟨by decide, h.1, h.2.1 "s1"⟩

/-! ## Lemmas about the chunker -/

lemma split_text_into_chunks_eq_nil_iff (env : BuildEnv) (text : String) :
    split_text_into_chunks env text = [] ↔ env.encode text = [] := by
  unfold split_text_into_chunks chunk_starts CHUNK_SIZE CHUNK_OVERLAP
  rw [List.map_eq_nil_iff, List.map_eq_nil_iff, List.range_eq_nil]
  rw [show 512 - 50 = 462 by norm_num, Nat.div_eq_zero_iff (by norm_num)]
  rw [← List.length_eq_zero]
  omega

/-- C8: the chunker yields at least one chunk on every non-empty input, and
yields zero chunks only on empty (hence in particular empty-or-blank) input.
The hypothesis records the byte-level fallback of the cl100k_base tokenizer:
only the empty string encodes to an empty token sequence. -/
theorem claim_C8 (env : BuildEnv) (text : String)
    (henc : ∀ s : String, env.encode s = [] → s = "") :
    (text ≠ "" → split_text_into_chunks env text ≠ [])
    ∧ (split_text_into_chunks env text = [] → text = "" ∨ str_strip text = "") := by
  constructor
  · intro hne hnil
    exact hne (henc text ((split_text_into_chunks_eq_nil_iff env text).1 hnil))
  · intro hnil
    exact Or.inl (henc text ((split_text_into_chunks_eq_nil_iff env text).1 hnil))

/-- A concrete build environment: one crawled url with the page text ab, the
identity as hash function, byte-level tokenizer, and an embedder that returns
the zero vector for every chunk. -/
def envW : BuildEnv :=
  ⟨fun _ => ["u"], fun _ => "ab", fun s => s,
    fun s => s.data.map Char.toNat, fun l => String.mk (l.map Char.ofNat),
    fun ts => .ok (ts.map (fun _ => [0]))⟩

lemma envW_encode_nil : ∀ s : String, envW.encode s = [] → s = "" := by
  intro s h
  have : s.data = [] := by simpa [envW, List.map_eq_nil_iff] using h
  cases s
  simp_all

theorem claim_C8_witness :
    (∀ s : String, envW.encode s = [] → s = "")
    ∧ ("ab" ≠ "" → split_text_into_chunks envW "ab" ≠ [])
    ∧ (split_text_into_chunks envW "ab" = [] → "ab" = "" ∨ str_strip "ab" = "") :=
  ⟨envW_encode_nil, (claim_C8 envW "ab" envW_encode_nil).1,
    (claim_C8 envW "ab" envW_encode_nil).2⟩

/-! ## Lemmas about reciprocal rank fusion -/

lemma add_score_if_fst (docId : String) (v : ℚ) (p : String × ℚ) :
    (if p.1 = docId then (p.1, p.2 + v) else p).1 = p.1 := by
  by_cases hp : p.1 = docId
  · simp [hp]
  · simp [hp]

lemma add_score_update (sc : List (String × ℚ)) (docId : String) (v : ℚ) :
    score_of (add_score sc docId v) docId = score_of sc docId + v := by
  unfold add_score
  by_cases h : sc.any (fun p => p.1 == docId)
  · rw [if_pos h]
    unfold score_of
    rw [List.find?_map]
    have hpred : ((fun p : String × ℚ => p.1 == docId) ∘
        (fun p : String × ℚ => if p.1 == docId then (p.1, p.2 + v) else p))
        = (fun p : String × ℚ => p.1 == docId) := by
      funext p
      simp [Function.comp, add_score_if_fst]
    rw [hpred]
    cases hf : sc.find? (fun p => p.1 == docId) with
    | some p =>
      have hp : p.1 = docId := by simpa using List.find?_some hf
      simp [hp]
    | none =>
      rw [List.any_eq_true] at h
      rw [List.find?_eq_none] at hf
      obtain ⟨x, hx, hpx⟩ := h
      exact absurd hpx (hf x hx)
  · rw [if_neg h]
    unfold score_of
    rw [List.find?_append]
    have hnone : sc.find? (fun p => p.1 == docId) = none := by
      rw [List.find?_eq_none]
      intro x hx hpx
      exact h (List.any_eq_true.mpr ⟨x, hx, hpx⟩)
    rw [hnone]
    simp [List.find?_cons]

lemma add_score_other (sc : List (String × ℚ)) (docId id : String) (v : ℚ)
    (hne : id ≠ docId) :
    score_of (add_score sc docId v) id = score_of sc id := by
  unfold add_score
  by_cases h : sc.any (fun p => p.1 == docId)
  · rw [if_pos h]
    unfold score_of
    rw [List.find?_map]
    have hpred : ((fun p : String × ℚ => p.1 == id) ∘
        (fun p : String × ℚ => if p.1 == docId then (p.1, p.2 + v) else p))
        = (fun p : String × ℚ => p.1 == id) := by
      funext p
      simp [Function.comp, add_score_if_fst]
    rw [hpred]
    cases hf : sc.find? (fun p => p.1 == id) with
    | some p =>
      have hp : p.1 = id := by simpa using List.find?_some hf
      have hpd : ¬ p.1 = docId := by rw [hp]; exact hne
      simp [hpd]
    | none => simp
  · rw [if_neg h]
    unfold score_of
    rw [List.find?_append]
    have hsingle : List.find? (fun p : String × ℚ => p.1 == id) [(docId, v)] = none := by
      simp [List.find?_cons, beq_false_of_ne (Ne.symm hne)]
    rw [hsingle]
    simp

lemma score_of_rrf_add_list (k : ℚ) :
    ∀ (l : List (String × ℚ)) (sc : List (String × ℚ)) (r : Nat) (docId : String),
      score_of (rrf_add_list k sc r l) docId = score_of sc docId + list_contrib k r l docId
  | [], sc, r, docId => by simp [rrf_add_list, list_contrib]
  | (pid, ps) :: rest, sc, r, docId => by
    rw [rrf_add_list, list_contrib]
    by_cases h : pid = docId
    · subst h
      rw [if_pos rfl, score_of_rrf_add_list k rest _ (r + 1) pid, add_score_update]
      ring
    · rw [if_neg h, score_of_rrf_add_list k rest _ (r + 1) docId,
        add_score_other _ _ _ _ (Ne.symm h)]

lemma add_score_keys (sc : List (String × ℚ)) (docId : String) (v : ℚ) :
    (add_score sc docId v).map Prod.fst
      = if sc.any (fun p => p.1 == docId) then sc.map Prod.fst
        else sc.map Prod.fst ++ [docId] := by
  unfold add_score
  by_cases h : sc.any (fun p => p.1 == docId)
  · rw [if_pos h, if_pos h, List.map_map]
    congr 1
    funext p
    simp [Function.comp, add_score_if_fst]
  · rw [if_neg h, if_neg h]
    simp

lemma add_score_keys_nodup {sc : List (String × ℚ)} {docId : String} {v : ℚ}
    (h : (sc.map Prod.fst).Nodup) : ((add_score sc docId v).map Prod.fst).Nodup := by
  rw [add_score_keys]
  by_cases hany : sc.any (fun p => p.1 == docId)
  · rw [if_pos hany]; exact h
  · rw [if_neg hany]
    have hnotin : docId ∉ sc.map Prod.fst := by
      intro hmem
      obtain ⟨p, hp, hfst⟩ := List.mem_map.mp hmem
      exact hany (List.any_eq_true.mpr ⟨p, hp, by simp [hfst]⟩)
    simp [List.nodup_append, h, hnotin]

lemma rrf_add_list_keys_nodup (k : ℚ) :
    ∀ (l sc : List (String × ℚ)) (r : Nat), (sc.map Prod.fst).Nodup →
      ((rrf_add_list k sc r l).map Prod.fst).Nodup
  | [], _, _, h => h
  | (pid, ps) :: rest, sc, r, h => by
    rw [rrf_add_list]
    exact rrf_add_list_keys_nodup k rest _ (r + 1) (add_score_keys_nodup h)

lemma insert_desc_perm (x : String × ℚ) :
    ∀ l : List (String × ℚ), (insert_desc x l).Perm (x :: l)
  | [] => List.Perm.refl _
  | y :: ys => by
    rw [insert_desc]
    by_cases h : y.2 < x.2
    · rw [if_pos h]
    · rw [if_neg h]
      exact ((insert_desc_perm x ys).cons y).trans (List.Perm.swap x y ys)

lemma sort_by_score_desc_perm :
    ∀ l : List (String × ℚ), (sort_by_score_desc l).Perm l
  | [] => List.Perm.refl _
  | x :: t => by
    unfold sort_by_score_desc
    rw [List.foldr_cons]
    exact (insert_desc_perm x _).trans ((sort_by_score_desc_perm t).cons x)

lemma score_of_perm :
    ∀ {l l' : List (String × ℚ)}, l.Perm l' → (l.map Prod.fst).Nodup →
      ∀ id : String, score_of l id = score_of l' id := by
  intro l l' h
  induction h with
  | nil => intro _ _; rfl
  | cons x hperm ih =>
    intro hnd id
    unfold score_of
    rw [List.find?_cons, List.find?_cons]
    cases hx : (x.1 == id) with
    | true => rfl
    | false =>
      have htail := ih (by simpa using (List.nodup_cons.mp (by simpa using hnd)).2) id
      unfold score_of at htail
      simpa using htail
  | swap x y t =>
    intro hnd id
    unfold score_of
    rw [List.find?_cons, List.find?_cons, List.find?_cons, List.find?_cons]
    cases hy : (y.1 == id) with
    | false => cases hx : (x.1 == id) <;> rfl
    | true =>
      cases hx : (x.1 == id) with
      | false => rfl
      | true =>
        exfalso
        have h1 : y.1 = id := by simpa using hy
        have h2 : x.1 = id := by simpa using hx
        have : y.1 ∉ (x :: t).map Prod.fst :=
          (List.nodup_cons.mp (by simpa using hnd)).1
        exact this (by simp [h1, h2])
  | trans h1 h2 ih1 ih2 =>
    intro hnd id
    have hnd2 := (h1.map Prod.fst).nodup_iff.mp hnd
    exact (ih1 hnd id).trans (ih2 hnd2 id)

lemma mem_insert_desc {y x : String × ℚ} :
    ∀ {l : List (String × ℚ)}, y ∈ insert_desc x l → y = x ∨ y ∈ l := by
  intro l hmem
  have := (insert_desc_perm x l).mem_iff.mp hmem
  simpa using this

lemma sorted_insert_desc (x : String × ℚ) :
    ∀ {l : List (String × ℚ)}, SortedDesc l → SortedDesc (insert_desc x l)
  | [], _ => by simp [insert_desc, SortedDesc]
  | y :: ys, h => by
    rw [insert_desc]
    have hy := (List.pairwise_cons.mp h).1
    have hys := (List.pairwise_cons.mp h).2
    by_cases hlt : y.2 < x.2
    · rw [if_pos hlt]
      refine List.pairwise_cons.mpr ⟨?_, h⟩
      intro b hb
      rcases List.mem_cons.mp hb with rfl | hb2
      · exact le_of_lt hlt
      · exact le_trans (hy b hb2) (le_of_lt hlt)
    · rw [if_neg hlt]
      refine List.pairwise_cons.mpr ⟨?_, sorted_insert_desc x hys⟩
      intro b hb
      rcases mem_insert_desc hb with rfl | hb2
      · exact le_of_not_lt hlt
      · exact hy b hb2

lemma sorted_sort_by_score_desc :
    ∀ l : List (String × ℚ), SortedDesc (sort_by_score_desc l)
  | [] => List.Pairwise.nil
  | x :: t => by
    unfold sort_by_score_desc
    rw [List.foldr_cons]
    exact sorted_insert_desc x (sorted_sort_by_score_desc t)

lemma list_contrib_not_mem (k : ℚ) :
    ∀ (l : List (String × ℚ)) (r : Nat) (id : String),
      id ∉ l.map Prod.fst → list_contrib k r l id = 0
  | [], _, _, _ => rfl
  | (pid, ps) :: rest, r, id, h => by
    rw [list_contrib]
    have hne : pid ≠ id := by
      intro hcontra
      exact h (by simp [hcontra])
    rw [if_neg hne]
    exact list_contrib_not_mem k rest (r + 1) id (by
      intro hmem
      exact h (by simp [hmem]))

lemma list_contrib_nodup (k : ℚ) :
    ∀ (l : List (String × ℚ)) (r : Nat) (id : String),
      (l.map Prod.fst).Nodup → id ∈ l.map Prod.fst →
      list_contrib k r l id
        = 1 / (k + (r : ℚ) + (((l.map Prod.fst).indexOf id : ℕ) : ℚ))
  | [], _, _, _, hmem => absurd hmem (by simp)
  | (pid, ps) :: rest, r, id, hnd, hmem => by
    rw [list_contrib]
    by_cases h : pid = id
    · subst h
      rw [if_pos rfl]
      have hrest : pid ∉ rest.map Prod.fst :=
        (List.nodup_cons.mp (by simpa using hnd)).1
      rw [list_contrib_not_mem k rest (r + 1) pid hrest]
      have hidx : ((pid :: rest.map Prod.fst).indexOf pid) = 0 :=
        List.indexOf_cons_self pid _
      simp only [List.map_cons, hidx]
      push_cast
      ring
    · rw [if_neg h]
      have hmem2 : id ∈ rest.map Prod.fst := by
        rcases (by simpa using hmem : id = pid ∨ ∃ x, (id, x) ∈ rest) with heq | ⟨x, hx⟩
        · exact absurd heq.symm h
        · exact List.mem_map.mpr ⟨(id, x), hx, rfl⟩
      have hnd2 : (rest.map Prod.fst).Nodup :=
        (List.nodup_cons.mp (by simpa using hnd)).2
      rw [list_contrib_nodup k rest (r + 1) id hnd2 hmem2]
      have hidx : ((pid :: rest.map Prod.fst).indexOf id)
          = (rest.map Prod.fst).indexOf id + 1 :=
        List.indexOf_cons_ne _ h
      simp only [List.map_cons, hidx]
      push_cast
      ring

lemma claim_contrib_of_not_mem {l : List (String × ℚ)} {id : String}
    (h : id ∉ l.map Prod.fst) : claim_contrib l id = 0 := by
  unfold claim_contrib
  rw [if_neg h]

lemma claim_contrib_pos {l : List (String × ℚ)} {id : String}
    (h : id ∈ l.map Prod.fst) : 0 < claim_contrib l id := by
  unfold claim_contrib
  rw [if_pos h]
  positivity

lemma list_contrib_eq_claim_contrib {l : List (String × ℚ)} {id : String}
    (hnd : (l.map Prod.fst).Nodup) :
    list_contrib 60 1 l id = claim_contrib l id := by
  by_cases h : id ∈ l.map Prod.fst
  · rw [list_contrib_nodup 60 l 1 id hnd h]
    unfold claim_contrib
    rw [if_pos h]
    congr 1
    push_cast
    ring
  · rw [list_contrib_not_mem 60 l 1 id h, claim_contrib_of_not_mem h]

/-- Fused score of a doc id produced by the fusion of a vector and a keyword
list: the sum of the contribution formulas of the two lists. -/
lemma fusion_score_formula (vec kw : List (String × ℚ)) (id : String)
    (hvec : (vec.map Prod.fst).Nodup) (hkw : (kw.map Prod.fst).Nodup) :
    score_of (reciprocal_rank_fusion [vec, kw] 60) id
      = claim_contrib vec id + claim_contrib kw id := by
  have hscores :
      ((List.foldl (fun sc results => rrf_add_list 60 sc 1 results) [] [vec, kw]).map
        Prod.fst).Nodup := by
    simp only [List.foldl_cons, List.foldl_nil]
    exact rrf_add_list_keys_nodup 60 kw _ 1
      (rrf_add_list_keys_nodup 60 vec [] 1 (by simp))
  have hsortnd :
      ((sort_by_score_desc
        (List.foldl (fun sc results => rrf_add_list 60 sc 1 results) [] [vec, kw])).map
        Prod.fst).Nodup :=
    ((sort_by_score_desc_perm _).map Prod.fst).nodup_iff.mpr hscores
  unfold reciprocal_rank_fusion
  rw [score_of_perm (sort_by_score_desc_perm _) hsortnd id]
  simp only [List.foldl_cons, List.foldl_nil]
  rw [score_of_rrf_add_list, score_of_rrf_add_list]
  rw [list_contrib_eq_claim_contrib hvec, list_contrib_eq_claim_contrib hkw]
  simp [score_of]

/-- C5: the fused score of a chunk id is the sum over the two ranked lists of
1 / (60 + rank), rank being the 1-based position in that list and a list that
omits the id contributing 0; the fused output is sorted by descending fused
score and execute keeps the first k doc ids of it; and an id present in both
lists scores strictly higher than the same id at the same rank in only one
list. -/
theorem claim_C5 (vec kw : List (String × ℚ)) (n_results : Nat) (docId : String)
    (hvec : (vec.map Prod.fst).Nodup) (hkw : (kw.map Prod.fst).Nodup) :
    score_of (reciprocal_rank_fusion [vec, kw] 60) docId
      = claim_contrib vec docId + claim_contrib kw docId
    ∧ SortedDesc (reciprocal_rank_fusion [vec, kw] 60)
    ∧ execute_rank vec kw n_results
        = ((reciprocal_rank_fusion [vec, kw] 60).take n_results).map Prod.fst
    ∧ (execute_rank vec kw n_results).length ≤ n_results
    ∧ (∀ kw2 : List (String × ℚ), (kw2.map Prod.fst).Nodup →
        docId ∈ vec.map Prod.fst → docId ∉ kw2.map Prod.fst →
        docId ∈ kw.map Prod.fst →
        score_of (reciprocal_rank_fusion [vec, kw2] 60) docId
          < score_of (reciprocal_rank_fusion [vec, kw] 60) docId)
    ∧ (∀ vec2 : List (String × ℚ), (vec2.map Prod.fst).Nodup →
        docId ∈ kw.map Prod.fst → docId ∉ vec2.map Prod.fst →
        docId ∈ vec.map Prod.fst →
        score_of (reciprocal_rank_fusion [vec2, kw] 60) docId
          < score_of (reciprocal_rank_fusion [vec, kw] 60) docId) := by
  refine ⟨fusion_score_formula vec kw docId hvec hkw, ?_, rfl, ?_, ?_, ?_⟩
  · exact sorted_sort_by_score_desc _
  · simp [execute_rank]
  · intro kw2 hkw2 hv hnk2 hk
    rw [fusion_score_formula vec kw docId hvec hkw,
      fusion_score_formula vec kw2 docId hvec hkw2,
      claim_contrib_of_not_mem hnk2]
    have := claim_contrib_pos (l := kw) hk
    linarith
  · intro vec2 hvec2 hk hnv2 hv
    rw [fusion_score_formula vec kw docId hvec hkw,
      fusion_score_formula vec2 kw docId hvec2 hkw]
    rw [claim_contrib_of_not_mem hnv2]
    have := claim_contrib_pos (l := vec) hv
    linarith

theorem claim_C5_witness :
    (([("a", (1 : ℚ)), ("b", 1 / 2)].map Prod.fst).Nodup
      ∧ ([("b", (3 : ℚ)), ("c", 2)].map Prod.fst).Nodup)
    ∧ score_of
        (reciprocal_rank_fusion [[("a", (1 : ℚ)), ("b", 1 / 2)], [("b", (3 : ℚ)), ("c", 2)]] 60)
        "b"
      = claim_contrib [("a", (1 : ℚ)), ("b", 1 / 2)] "b"
        + claim_contrib [("b", (3 : ℚ)), ("c", 2)] "b" :=
  ⟨⟨by decide, by decide⟩,
    (claim_C5 [("a", (1 : ℚ)), ("b", 1 / 2)] [("b", (3 : ℚ)), ("c", 2)] 2 "b"
      (by decide) (by decide)).1⟩

/-! ## Lemmas about the build pipeline -/

lemma delete_vectors_by_url_nil (db : List Chunk) :
    delete_vectors_by_url db [] = db := by
  simp [delete_vectors_by_url]

lemma build_db1_eq (db0 : List Chunk) (crawled : List String) :
    (if (pages_to_delete db0 crawled).isEmpty then db0
      else delete_vectors_by_url db0 (pages_to_delete db0 crawled))
      = delete_vectors_by_url db0 (pages_to_delete db0 crawled) := by
  by_cases h : (pages_to_delete db0 crawled).isEmpty
  · rw [if_pos h]
    rw [List.isEmpty_iff] at h
    rw [h, delete_vectors_by_url_nil]
  · rw [if_neg h]

lemma build_empty_crawl (env : BuildEnv) (siteUrl : String) (db0 : List Chunk)
    (bm0 : Option BM25Data) (hc : env.crawl siteUrl = []) :
    build_rag_from_path env siteUrl db0 bm0
      = .ok ⟨[("status", PyVal.str "error"),
          ("message", PyVal.str (error_message siteUrl))], db0, bm0, 0, 0, 0⟩ := by
  rw [build_rag_from_path]
  rw [if_pos (by rw [hc]; rfl)]

lemma build_ok_elim (env : BuildEnv) (siteUrl : String) (db0 : List Chunk)
    (bm0 : Option BM25Data) (out : BuildOutput) (hne : env.crawl siteUrl ≠ [])
    (h : build_rag_from_path env siteUrl db0 bm0 = .ok out) :
    ∃ db2 processed skipped,
      process_pages env (delete_vectors_by_url db0 (pages_to_delete db0 (env.crawl siteUrl)))
          0 0 (env.crawl siteUrl) = .ok (db2, processed, skipped)
      ∧ out = ⟨[("status", PyVal.str "success"),
          ("message", PyVal.str (success_message processed skipped
            (pages_to_delete db0 (env.crawl siteUrl)).length))],
          db2, build_and_save_bm25_index db2 bm0, processed, skipped,
          (pages_to_delete db0 (env.crawl siteUrl)).length⟩ := by
  have hfalse : (env.crawl siteUrl).isEmpty = false := by
    rw [List.isEmpty_eq_false]; exact hne
  simp only [build_rag_from_path, hfalse, Bool.false_eq_true, if_false] at h
  rw [build_db1_eq] at h
  cases hp : process_pages env
      (delete_vectors_by_url db0 (pages_to_delete db0 (env.crawl siteUrl)))
      0 0 (env.crawl siteUrl) with
  | error e =>
    rw [hp] at h
    exact absurd h (by simp)
  | ok triple =>
    obtain ⟨db2, processed, skipped⟩ := triple
    rw [hp] at h
    refine ⟨db2, processed, skipped, rfl, ?_⟩
    have := (Except.ok.injEq _ _).mp h
    exact this.symm

/-- C6 fails on the code: the record returned by a successful build holds only
the keys status and message; the processed, skipped and deleted counts exist
only interpolated into the message string, not as integer fields. -/
theorem claim_C6_counterexample :
    build_rag_from_path envW "s" [] none
      = .ok ⟨[("status", PyVal.str "success"), ("message", PyVal.str (success_message 1 0 0))],
          [⟨"u#0", "u", "ab", "ab", [0]⟩], some ⟨["u#0"], ["ab"]⟩, 1, 0, 0⟩
    ∧ ([("status", PyVal.str "success"),
        ("message", PyVal.str (success_message 1 0 0))] : List (String × PyVal)).lookup
        "processed" = none
    ∧ ([("status", PyVal.str "success"),
        ("message", PyVal.str (success_message 1 0 0))] : List (String × PyVal)).lookup
        "skipped" = none
    ∧ ([("status", PyVal.str "success"),
        ("message", PyVal.str (success_message 1 0 0))] : List (String × PyVal)).lookup
        "deleted" = none :=
  ⟨rfl, rfl, rfl, rfl⟩

/-- C6 amended: the build returns a record whose keys are exactly status and
message; the integer counts are embedded in the message string; and the status
is error exactly when the crawl yields zero urls, success otherwise (when the
build returns at all, an uncaught embedding failure excepted). -/
theorem claim_C6_amended (env : BuildEnv) (siteUrl : String) (db0 : List Chunk)
    (bm0 : Option BM25Data) (out : BuildOutput)
    (h : build_rag_from_path env siteUrl db0 bm0 = .ok out) :
    out.result.map Prod.fst = ["status", "message"]
    ∧ (out.result.lookup "status" = some (PyVal.str "error") ↔ env.crawl siteUrl = [])
    ∧ (env.crawl siteUrl ≠ [] →
        out.result.lookup "status" = some (PyVal.str "success")
        ∧ out.result.lookup "message"
            = some (PyVal.str (success_message out.processedCount out.skippedCount
                out.deletedCount))) := by
  by_cases hc : env.crawl siteUrl = []
  · rw [build_empty_crawl env siteUrl db0 bm0 hc] at h
    have hout := (Except.ok.injEq _ _).mp h
    subst hout
    refine ⟨rfl, by simp [List.lookup, hc], ?_⟩
    intro hne
    exact absurd hc hne
  · obtain ⟨db2, processed, skipped, _, hout⟩ := build_ok_elim env siteUrl db0 bm0 out hc h
    subst hout
    refine ⟨rfl, ?_, ?_⟩
    · constructor
      · intro hcontra
        simp [List.lookup] at hcontra
      · intro hcontra
        exact absurd hcontra hc
    · intro _
      exact ⟨rfl, rfl⟩

/-- The output of building envW starting from an empty vector db. -/
def outW : BuildOutput :=
  ⟨[("status", PyVal.str "success"), ("message", PyVal.str (success_message 1 0 0))],
    [⟨"u#0", "u", "ab", "ab", [0]⟩], some ⟨["u#0"], ["ab"]⟩, 1, 0, 0⟩

theorem claim_C6_amended_witness :
    build_rag_from_path envW "s" [] none = .ok outW
    ∧ outW.result.map Prod.fst = ["status", "message"]
    ∧ (envW.crawl "s" ≠ [] →
        outW.result.lookup "status" = some (PyVal.str "success")
        ∧ outW.result.lookup "message"
            = some (PyVal.str (success_message outW.processedCount outW.skippedCount
                outW.deletedCount))) :=
  have h : build_rag_from_path envW "s" [] none = .ok outW := rfl
  ⟨h, (claim_C6_amended envW "s" [] none outW h).1,
    (claim_C6_amended envW "s" [] none outW h).2.2⟩

/-- Build oracles whose embedding call always fails with an API error. -/
def envC7 : BuildEnv :=
  ⟨fun _ => ["u1", "u2"], fun _ => "x", fun s => s,
    fun s => s.data.map Char.toNat, fun l => String.mk (l.map Char.ofNat),
    fun _ => .error "APIError"⟩

/-- C7 fails on the code: an embedding failure on the first page is not caught
anywhere in build_rag_from_path, so the whole build aborts with the error; the
second url is never processed and no report is returned. -/
theorem claim_C7_counterexample :
    build_rag_from_path envC7 "s" [] none = .error "APIError" := rfl

/-- C7 amended: a fetch failure, which the scraper converts into empty text,
only skips the affected page (without recording it in any counter) and the
loop continues with the remaining urls; an embedding failure, in contrast,
propagates out of the build, aborting the remaining urls and returning no
report. -/
theorem claim_C7_amended (env : BuildEnv) (db : List Chunk) (processed skipped : Nat)
    (url : String) (rest : List String) (e : String) :
    (str_strip (env.fetch url) = "" →
      process_pages env db processed skipped (url :: rest)
        = process_pages env db processed skipped rest)
    ∧ (str_strip (env.fetch url) ≠ "" →
        (∀ c, db.find? (fun c => c.pageUrl == url) = some c →
          c.contentHash ≠ env.sha256 (env.fetch url)) →
        env.embedBatch (split_text_into_chunks env (env.fetch url)) = .error e →
        process_pages env db processed skipped (url :: rest) = .error e) := by
  constructor
  · intro hempty
    rw [process_pages, if_pos hempty]
  · intro hne hmiss hembed
    have hmatched :
        (match db.find? (fun c => c.pageUrl == url) with
          | some c => c.contentHash == env.sha256 (env.fetch url)
          | none => false) = false := by
      cases hf : db.find? (fun c => c.pageUrl == url) with
      | none => rfl
      | some c =>
        simpa using hmiss c hf
    simp only [process_pages]
    rw [if_neg hne, hmatched]
    rw [if_neg (by simp), hembed]

/-- Build oracles where the url e fetches blank text, other urls fetch the
text x, and every embedding call fails. -/
def envC7W : BuildEnv :=
  ⟨fun _ => ["u"], fun u => if u = "e" then " " else "x", fun s => s,
    fun s => s.data.map Char.toNat, fun l => String.mk (l.map Char.ofNat),
    fun _ => .error "APIError"⟩

theorem claim_C7_amended_witness :
    process_pages envC7W [] 0 0 ["e"] = process_pages envC7W [] 0 0 []
    ∧ process_pages envC7W [] 0 0 ["u"] = .error "APIError" :=
  ⟨(claim_C7_amended envC7W [] 0 0 "e" [] "APIError").1 (by decide),
    (claim_C7_amended envC7W [] 0 0 "u" [] "APIError").2 (by decide)
      (by intro c hc; simp [List.find?] at hc) rfl⟩

/-- Build oracles with a single crawled url whose page text is blank. -/
def envC9 : BuildEnv :=
  ⟨fun _ => ["u"], fun _ => " ", fun s => s,
    fun s => s.data.map Char.toNat, fun l => String.mk (l.map Char.ofNat),
    fun ts => .ok (ts.map (fun _ => [0]))⟩

/-- C9 fails on the code: a crawled url whose fetched text is whitespace-only
is skipped without being indexed, but the skip is not recorded: the reported
skipped count stays 0 because the loop continues without touching the
counter. -/
theorem claim_C9_counterexample :
    str_strip (envC9.fetch "u") = ""
    ∧ build_rag_from_path envC9 "s" [] none
        = .ok ⟨[("status", PyVal.str "success"),
            ("message", PyVal.str (success_message 0 0 0))], [], none, 0, 0, 0⟩ :=
  ⟨rfl, rfl⟩

lemma process_pages_all_blank (env : BuildEnv) :
    ∀ (urls : List String) (db : List Chunk) (p s : Nat),
      (∀ u ∈ urls, str_strip (env.fetch u) = "") →
      process_pages env db p s urls = .ok (db, p, s)
  | [], _, _, _, _ => rfl
  | url :: rest, db, p, s, hall => by
    rw [process_pages, if_pos (hall url (List.mem_cons_self _ _))]
    exact process_pages_all_blank env rest db p s
      (fun u hu => hall u (List.mem_cons_of_mem _ hu))

/-- C9 amended: during any build, a crawled url whose fetched text is empty or
whitespace-only is skipped without being indexed and without contributing to
any counter, and the loop carries on with the remaining urls: wherever such a
url sits in the crawl list, among arbitrary other pages and starting from an
arbitrary db and counter state, dropping it from the list leaves the rest of
the loop (db returned, processed count, and in particular the reported skipped
count) unchanged. -/
theorem claim_C9_amended (env : BuildEnv) (db : List Chunk) (processed skipped : Nat)
    (url : String) (us1 us2 : List String)
    (hblank : str_strip (env.fetch url) = "") :
    process_pages env db processed skipped (us1 ++ url :: us2)
      = process_pages env db processed skipped (us1 ++ us2) := by
  induction us1 generalizing db processed skipped with
  | nil =>
    rw [List.nil_append, List.nil_append, process_pages, if_pos hblank]
  | cons q qs ih =>
    rw [List.cons_append, List.cons_append]
    simp only [process_pages]
    by_cases hq : str_strip (env.fetch q) = ""
    · rw [if_pos hq, if_pos hq]
      exact ih db processed skipped
    · rw [if_neg hq, if_neg hq]
      cases hm : (match db.find? (fun c => c.pageUrl == q) with
          | some c => c.contentHash == env.sha256 (env.fetch q)
          | none => false) with
      | true =>
        rw [if_pos rfl, if_pos rfl]
        exact ih db processed (skipped + 1)
      | false =>
        rw [if_neg (show ¬ (false = true) by simp), if_neg (show ¬ (false = true) by simp)]
        cases he : env.embedBatch (split_text_into_chunks env (env.fetch q)) with
        | error e => rfl
        | ok embeddings => exact ih _ (processed + 1) skipped

/-- Build oracles for a mixed crawl: the url e fetches blank text while the
other urls fetch the text x, and embedding succeeds. -/
def envC9M : BuildEnv :=
  ⟨fun _ => ["u", "e", "v"], fun u => if u = "e" then " " else "x", fun s => s,
    fun s => s.data.map Char.toNat, fun l => String.mk (l.map Char.ofNat),
    fun ts => .ok (ts.map (fun _ => [0]))⟩

theorem claim_C9_amended_witness :
    str_strip (envC9M.fetch "e") = ""
    ∧ process_pages envC9M [] 0 0 (["u"] ++ "e" :: ["v"])
        = process_pages envC9M [] 0 0 (["u"] ++ ["v"]) :=
  ⟨by decide, claim_C9_amended envC9M [] 0 0 "e" ["u"] ["v"] (by decide)⟩

/-! ## Membership lemmas for the vector store operations -/

lemma mem_delete_vectors_by_url {db : List Chunk} {urls : List String} {c : Chunk} :
    c ∈ delete_vectors_by_url db urls ↔ c ∈ db ∧ c.pageUrl ∉ urls := by
  simp [delete_vectors_by_url]

lemma mem_upsert_vectors_to_db :
    ∀ (newChunks db : List Chunk) (c : Chunk),
      c ∈ upsert_vectors_to_db db newChunks → c ∈ db ∨ c ∈ newChunks := by
  intro newChunks
  induction newChunks with
  | nil => intro db c h; exact Or.inl h
  | cons n ns ih =>
    intro db c h
    rw [upsert_vectors_to_db, List.foldl_cons] at h
    have h2 := ih (if db.any (fun o => o.id == n.id)
        then db.map (fun o => if o.id == n.id then n else o) else db ++ [n]) c (by
      rw [upsert_vectors_to_db]; exact h)
    rcases h2 with hdb | hns
    · by_cases hc : db.any (fun o => o.id == n.id)
      · rw [if_pos hc] at hdb
        obtain ⟨o, ho, hco⟩ := List.mem_map.mp hdb
        by_cases hid : o.id = n.id
        · right; rw [← hco]; simp [hid]
        · left
          have heq : (if o.id == n.id then n else o) = o := by simp [hid]
          rw [heq] at hco
          rw [← hco]
          exact ho
      · rw [if_neg hc] at hdb
        rcases List.mem_append.mp hdb with h1 | h2
        · exact Or.inl h1
        · right
          simp only [List.mem_singleton] at h2
          simp [h2]
    · exact Or.inr (List.mem_cons_of_mem _ hns)

lemma mem_page_chunks {url contentHash : String} {chunks : List String}
    {embeddings : List (List ℚ)} {c : Chunk}
    (h : c ∈ page_chunks url contentHash chunks embeddings) :
    c.pageUrl = url ∧ c.contentHash = contentHash
      ∧ ∃ i : Nat, c.id = url ++ "#" ++ toString i := by
  obtain ⟨q, _, hc⟩ := List.mem_map.mp h
  rw [← hc]
  exact ⟨rfl, rfl, q.1, rfl⟩

/-- Every chunk in the vector db after the per-page loop either survived from
the starting db or carries the page url of one of the processed urls. -/
lemma process_pages_pageUrl_invariant (env : BuildEnv) (S : List String) :
    ∀ (urls : List String) (db : List Chunk) (p s : Nat) {db2 : List Chunk} {p2 s2 : Nat},
      process_pages env db p s urls = .ok (db2, p2, s2) →
      (∀ u ∈ urls, u ∈ S) →
      (∀ c ∈ db, c.pageUrl ∈ S) →
      ∀ c ∈ db2, c.pageUrl ∈ S := by
  intro urls
  induction urls with
  | nil =>
    intro db p s db2 p2 s2 h _ hdb
    rw [process_pages] at h
    have h1 : (db, p, s) = (db2, p2, s2) := (Except.ok.injEq _ _).mp h
    have hdb2 : db = db2 := congrArg Prod.fst h1
    exact hdb2 ▸ hdb
  | cons url rest ih =>
    intro db p s db2 p2 s2 h hurls hdb
    have hrest : ∀ u ∈ rest, u ∈ S := fun u hu => hurls u (List.mem_cons_of_mem _ hu)
    simp only [process_pages] at h
    by_cases hblank : str_strip (env.fetch url) = ""
    · rw [if_pos hblank] at h
      exact ih db p s h hrest hdb
    · rw [if_neg hblank] at h
      cases hmatch : (match db.find? (fun c => c.pageUrl == url) with
          | some c => c.contentHash == env.sha256 (env.fetch url)
          | none => false) with
      | true =>
        rw [hmatch, if_pos rfl] at h
        exact ih db p (s + 1) h hrest hdb
      | false =>
        rw [hmatch] at h
        rw [if_neg (by simp)] at h
        cases hemb : env.embedBatch (split_text_into_chunks env (env.fetch url)) with
        | error e =>
          rw [hemb] at h
          exact absurd h (by simp)
        | ok embeddings =>
          rw [hemb] at h
          refine ih _ (p + 1) s h hrest ?_
          intro c hc
          rcases mem_upsert_vectors_to_db _ _ c hc with hold | hnew
          · by_cases hexist : (db.find? (fun c => c.pageUrl == url)).isSome
            · rw [if_pos hexist] at hold
              exact hdb c (mem_delete_vectors_by_url.mp hold).1
            · rw [if_neg hexist] at hold
              exact hdb c hold
          · rw [(mem_page_chunks hnew).1]
            exact hurls url (List.mem_cons_self _ _)

/-- C4: every sourceUrl present in the vector db but absent from the crawl set
has all its chunks removed by the deletion phase that precedes the per-page
loop; consequently every chunk in the final vector db belongs to a crawled
url, and every entry of a keyword index produced by the final rebuild comes
from such a chunk. -/
theorem claim_C4 (env : BuildEnv) (siteUrl : String) (db0 : List Chunk)
    (bm0 : Option BM25Data) (out : BuildOutput)
    (hne : env.crawl siteUrl ≠ [])
    (h : build_rag_from_path env siteUrl db0 bm0 = .ok out) :
    (∀ c ∈ db0, c.pageUrl ∉ env.crawl siteUrl →
      c ∉ delete_vectors_by_url db0 (pages_to_delete db0 (env.crawl siteUrl)))
    ∧ (∀ c ∈ out.db, c.pageUrl ∈ env.crawl siteUrl)
    ∧ (∀ bm, bm25_corpus out.db = some bm →
        ∀ cid ∈ bm.corpusIds,
          ∃ c ∈ out.db, c.id = cid ∧ c.pageUrl ∈ env.crawl siteUrl) := by
  have hfinal : ∀ c ∈ out.db, c.pageUrl ∈ env.crawl siteUrl := by
    obtain ⟨db2, processed, skipped, hp, hout⟩ := build_ok_elim env siteUrl db0 bm0 out hne h
    have hbase : ∀ c ∈ delete_vectors_by_url db0 (pages_to_delete db0 (env.crawl siteUrl)),
        c.pageUrl ∈ env.crawl siteUrl := by
      intro c hc
      obtain ⟨hc0, hnot⟩ := mem_delete_vectors_by_url.mp hc
      by_contra habs
      refine hnot ?_
      unfold pages_to_delete
      refine List.mem_filter.mpr ⟨?_, by simpa using habs⟩
      unfold get_all_pages_from_db
      exact List.mem_dedup.mpr (List.mem_map.mpr ⟨c, hc0, rfl⟩)
    have := process_pages_pageUrl_invariant env (env.crawl siteUrl) (env.crawl siteUrl)
      _ 0 0 hp (fun u hu => hu) hbase
    rw [hout]
    exact this
  refine ⟨?_, hfinal, ?_⟩
  · intro c hc0 habs hcontra
    obtain ⟨_, hnot⟩ := mem_delete_vectors_by_url.mp hcontra
    refine hnot ?_
    unfold pages_to_delete
    refine List.mem_filter.mpr ⟨?_, by simpa using habs⟩
    unfold get_all_pages_from_db
    exact List.mem_dedup.mpr (List.mem_map.mpr ⟨c, hc0, rfl⟩)
  · intro bm hbm cid hcid
    simp only [bm25_corpus] at hbm
    by_cases hdbe : out.db.isEmpty
    · rw [if_pos hdbe] at hbm
      cases hbm
    · rw [if_neg hdbe] at hbm
      by_cases hv : (out.db.filter (fun c => decide (str_strip c.chunkText ≠ ""))).isEmpty
      · rw [if_pos hv] at hbm
        cases hbm
      · rw [if_neg hv] at hbm
        have hbm2 := (Option.some.injEq _ _).mp hbm
        rw [← hbm2] at hcid
        obtain ⟨c, hcf, hcidEq⟩ := List.mem_map.mp hcid
        have hcdb : c ∈ out.db := (List.mem_filter.mp hcf).1
        exact ⟨c, hcdb, hcidEq, hfinal c hcdb⟩

/-- The output of building envW starting from a vector db holding one chunk of
a url that is absent from the crawl. -/
def outC4 : BuildOutput :=
  ⟨[("status", PyVal.str "success"), ("message", PyVal.str (success_message 1 0 1))],
    [⟨"u#0", "u", "ab", "ab", [0]⟩], some ⟨["u#0"], ["ab"]⟩, 1, 0, 1⟩

theorem claim_C4_witness :
    envW.crawl "s" ≠ []
    ∧ build_rag_from_path envW "s" [⟨"old#0", "old", "h", "t", [0]⟩] none = .ok outC4
    ∧ (∀ c ∈ outC4.db, c.pageUrl ∈ envW.crawl "s")
    ∧ (∀ c ∈ ([⟨"old#0", "old", "h", "t", [0]⟩] : List Chunk),
        c.pageUrl ∉ envW.crawl "s" →
        c ∉ delete_vectors_by_url [⟨"old#0", "old", "h", "t", [0]⟩]
          (pages_to_delete [⟨"old#0", "old", "h", "t", [0]⟩] (envW.crawl "s"))) :=
  have h : build_rag_from_path envW "s" [⟨"old#0", "old", "h", "t", [0]⟩] none
      = .ok outC4 := rfl
  have hc := claim_C4 envW "s" [⟨"old#0", "old", "h", "t", [0]⟩] none outC4
    (by decide) h
  ⟨by decide, h, hc.2.1, hc.1⟩

/-! ## Chunk id well-formedness

Everything the builder ever stores has an id of the shape url, hash sign,
decimal index, with a url that contains no hash sign (the crawler produces
page urls, where a hash sign would be a fragment separator).  Under this shape
two chunks of different pages can never share an id, which is what makes the
ChromaDB upsert of one page unable to touch the chunks of another. -/

def chunk_id_wf (c : Chunk) : Prop :=
  (∃ i : Nat, c.id = c.pageUrl ++ "#" ++ toString i) ∧ '#' ∉ c.pageUrl.data

def db_wf (db : List Chunk) : Prop := ∀ c ∈ db, chunk_id_wf c

/-- The skip condition of the change-detection step, exactly as the loop tests
it: the first stored chunk of the url exists and its stored hash equals the
hash of the freshly fetched text; or the fetch is blank, in which case the
page is skipped before the hash is even computed. -/
def page_in_sync (env : BuildEnv) (db : List Chunk) (u : String) : Prop :=
  str_strip (env.fetch u) = ""
  ∨ ∃ c, db.find? (fun c => c.pageUrl == u) = some c
      ∧ c.contentHash = env.sha256 (env.fetch u)

lemma append_char_inj {ch : Char} :
    ∀ {l1 l2 r1 r2 : List Char}, ch ∉ l1 → ch ∉ l2 →
      l1 ++ ch :: r1 = l2 ++ ch :: r2 → l1 = l2 ∧ r1 = r2 := by
  intro l1
  induction l1 with
  | nil =>
    intro l2 r1 r2 _ h2 heq
    cases l2 with
    | nil => simpa using heq
    | cons b bs =>
      rw [List.nil_append, List.cons_append, List.cons.injEq] at heq
      exact absurd (heq.1 ▸ List.mem_cons_self b bs) (heq.1 ▸ h2)
  | cons a as ih =>
    intro l2 r1 r2 h1 h2 heq
    cases l2 with
    | nil =>
      rw [List.nil_append, List.cons_append, List.cons.injEq] at heq
      exact absurd (heq.1.symm ▸ List.mem_cons_self a as) (heq.1.symm ▸ h1)
    | cons b bs =>
      rw [List.cons_append, List.cons_append, List.cons.injEq] at heq
      have hih := ih (fun hm => h1 (List.mem_cons_of_mem _ hm))
        (fun hm => h2 (List.mem_cons_of_mem _ hm)) heq.2
      exact ⟨by rw [heq.1, hih.1], hih.2⟩

lemma id_string_inj {u1 u2 s1 s2 : String}
    (h1 : '#' ∉ u1.data) (h2 : '#' ∉ u2.data)
    (heq : u1 ++ "#" ++ s1 = u2 ++ "#" ++ s2) : u1 = u2 := by
  have hdata : u1.data ++ '#' :: s1.data = u2.data ++ '#' :: s2.data := by
    have : (u1 ++ "#" ++ s1).data = (u2 ++ "#" ++ s2).data := by rw [heq]
    simpa using this
  have := append_char_inj h1 h2 hdata
  cases u1
  cases u2
  exact congrArg String.mk this.1

/-- Distinct hash-free page urls give distinct well-formed chunk ids. -/
lemma wf_id_ne {c : Chunk} {url : String} {j : Nat}
    (hwf : chunk_id_wf c) (hurl : '#' ∉ url.data) (hne : c.pageUrl ≠ url) :
    c.id ≠ url ++ "#" ++ toString j := by
  obtain ⟨⟨i, hid⟩, hfree⟩ := hwf
  rw [hid]
  intro hcontra
  exact hne (id_string_inj hfree hurl hcontra)

/-! ## find? preservation through the store operations -/

lemma find?_filter_of_imp {p q : Chunk → Bool} :
    ∀ l : List Chunk, (∀ x, p x = true → q x = true) →
      (l.filter q).find? p = l.find? p
  | [], _ => rfl
  | a :: t, himp => by
    rw [List.filter_cons]
    cases hp : p a with
    | true =>
      rw [if_pos (himp a hp), List.find?_cons, hp, List.find?_cons, hp]
    | false =>
      cases hq : q a with
      | true =>
        rw [if_pos rfl, List.find?_cons, hp, List.find?_cons, hp]
        exact find?_filter_of_imp t himp
      | false =>
        rw [if_neg (by simp), List.find?_cons, hp]
        exact find?_filter_of_imp t himp

lemma find?_map_of_fix {p : Chunk → Bool} {f : Chunk → Chunk} :
    ∀ l : List Chunk, (∀ x ∈ l, p (f x) = p x ∧ (p x = true → f x = x)) →
      (l.map f).find? p = l.find? p
  | [], _ => rfl
  | a :: t, hfix => by
    rw [List.map_cons, List.find?_cons, List.find?_cons]
    have ha := hfix a (List.mem_cons_self _ _)
    cases hp : p a with
    | true =>
      simp only [ha.1.trans hp, ha.2 hp, hp]
    | false =>
      simp only [ha.1.trans hp]
      exact find?_map_of_fix t (fun x hx => hfix x (List.mem_cons_of_mem _ hx))

/-! ## Upsert lemmas -/

lemma upsert_find?_preserved (u : String) :
    ∀ (ns acc : List Chunk),
      (∀ n ∈ ns, n.pageUrl ≠ u) →
      (∀ c ∈ acc, c.pageUrl = u → ∀ n ∈ ns, c.id ≠ n.id) →
      (upsert_vectors_to_db acc ns).find? (fun c => c.pageUrl == u)
        = acc.find? (fun c => c.pageUrl == u)
  | [], _, _, _ => rfl
  | n :: ns, acc, hns, hnc => by
    rw [upsert_vectors_to_db, List.foldl_cons]
    have hstep :
        (if acc.any (fun o => o.id == n.id)
          then acc.map (fun o => if o.id == n.id then n else o) else acc ++ [n]).find?
            (fun c => c.pageUrl == u)
          = acc.find? (fun c => c.pageUrl == u) := by
      by_cases hany : acc.any (fun o => o.id == n.id)
      · rw [if_pos hany]
        refine find?_map_of_fix acc ?_
        intro x hx
        by_cases hid : x.id = n.id
        · have hxu : x.pageUrl ≠ u := by
            intro hxu
            exact hnc x hx hxu n (List.mem_cons_self _ _) hid
          constructor
          · simp only [hid, beq_self_eq_true, if_true]
            have h1 : (n.pageUrl == u) = false :=
              beq_false_of_ne (hns n (List.mem_cons_self _ _))
            have h2 : (x.pageUrl == u) = false := beq_false_of_ne hxu
            rw [h1, h2]
          · intro hpx
            exact absurd (by simpa using hpx) hxu
        · constructor
          · simp [hid]
          · intro _
            simp [hid]
      · rw [if_neg hany, List.find?_append]
        have hn : List.find? (fun c => c.pageUrl == u) [n] = none := by
          simp [List.find?_cons, beq_false_of_ne (hns n (List.mem_cons_self _ _))]
        rw [hn]
        cases acc.find? (fun c => c.pageUrl == u) <;> rfl
    have hrec := upsert_find?_preserved u ns
      (if acc.any (fun o => o.id == n.id)
        then acc.map (fun o => if o.id == n.id then n else o) else acc ++ [n])
      (fun m hm => hns m (List.mem_cons_of_mem _ hm))
      (by
        intro c hc hcu m hm
        by_cases hany : acc.any (fun o => o.id == n.id)
        · rw [if_pos hany] at hc
          obtain ⟨o, ho, hoc⟩ := List.mem_map.mp hc
          by_cases hid : o.id = n.id
          · have : (if o.id == n.id then n else o) = n := by simp [hid]
            rw [this] at hoc
            exact absurd (hoc ▸ hcu) (hns n (List.mem_cons_self _ _))
          · have : (if o.id == n.id then n else o) = o := by simp [hid]
            rw [this] at hoc
            exact hoc ▸ hnc o ho (hoc ▸ hcu) m (List.mem_cons_of_mem _ hm)
        · rw [if_neg hany] at hc
          rcases List.mem_append.mp hc with h1 | h2
          · exact hnc c h1 hcu m (List.mem_cons_of_mem _ hm)
          · simp only [List.mem_singleton] at h2
            exact absurd (h2 ▸ hcu) (hns n (List.mem_cons_self _ _)))
    rw [upsert_vectors_to_db] at hrec
    rw [hrec, hstep]

lemma upsert_keep_exists (u : String) :
    ∀ (ns acc : List Chunk),
      (∀ n ∈ ns, n.pageUrl = u) →
      (∃ c ∈ acc, c.pageUrl = u) →
      ∃ c ∈ upsert_vectors_to_db acc ns, c.pageUrl = u
  | [], acc, _, hex => hex
  | n :: ns, acc, hns, hex => by
    rw [upsert_vectors_to_db, List.foldl_cons]
    have hstep : ∃ c ∈ (if acc.any (fun o => o.id == n.id)
        then acc.map (fun o => if o.id == n.id then n else o) else acc ++ [n]),
        c.pageUrl = u := by
      obtain ⟨c, hc, hcu⟩ := hex
      by_cases hany : acc.any (fun o => o.id == n.id)
      · rw [if_pos hany]
        refine ⟨if c.id == n.id then n else c, List.mem_map.mpr ⟨c, hc, rfl⟩, ?_⟩
        by_cases hid : c.id = n.id
        · simp [hid, hns n (List.mem_cons_self _ _)]
        · simp [hid, hcu]
      · rw [if_neg hany]
        exact ⟨c, List.mem_append.mpr (Or.inl hc), hcu⟩
    have := upsert_keep_exists u ns _
      (fun m hm => hns m (List.mem_cons_of_mem _ hm)) hstep
    rw [upsert_vectors_to_db] at this
    exact this

lemma upsert_exists_of_nonempty (u : String) (acc : List Chunk) :
    ∀ ns : List Chunk, ns ≠ [] → (∀ n ∈ ns, n.pageUrl = u) →
      ∃ c ∈ upsert_vectors_to_db acc ns, c.pageUrl = u
  | [], hne, _ => absurd rfl hne
  | n :: ns, _, hns => by
    rw [upsert_vectors_to_db, List.foldl_cons]
    have hstep : ∃ c ∈ (if acc.any (fun o => o.id == n.id)
        then acc.map (fun o => if o.id == n.id then n else o) else acc ++ [n]),
        c.pageUrl = u := by
      by_cases hany : acc.any (fun o => o.id == n.id)
      · rw [if_pos hany]
        obtain ⟨o, ho, hoid⟩ := List.any_eq_true.mp hany
        refine ⟨if o.id == n.id then n else o, List.mem_map.mpr ⟨o, ho, rfl⟩, ?_⟩
        rw [if_pos hoid]
        exact hns n (List.mem_cons_self _ _)
      · rw [if_neg hany]
        exact ⟨n, List.mem_append.mpr (Or.inr (List.mem_singleton.mpr rfl)),
          hns n (List.mem_cons_self _ _)⟩
    have := upsert_keep_exists u ns _
      (fun m hm => hns m (List.mem_cons_of_mem _ hm)) hstep
    rw [upsert_vectors_to_db] at this
    exact this

lemma page_chunks_ne_nil {url contentHash : String} {chunks : List String}
    {embeddings : List (List ℚ)} (hlen : embeddings.length = chunks.length)
    (hne : chunks ≠ []) :
    page_chunks url contentHash chunks embeddings ≠ [] := by
  have hpos : 0 < chunks.length := List.length_pos.mpr hne
  have : (page_chunks url contentHash chunks embeddings).length = chunks.length := by
    simp [page_chunks, hlen]
  intro hnil
  rw [hnil] at this
  simp at this
  omega

lemma sync_of_parts {db : List Chunk} {u hsh : String}
    (hex : ∃ c ∈ db, c.pageUrl = u)
    (hall : ∀ c ∈ db, c.pageUrl = u → c.contentHash = hsh) :
    ∃ c, db.find? (fun c => c.pageUrl == u) = some c ∧ c.contentHash = hsh := by
  obtain ⟨c0, hc0, hcu⟩ := hex
  have hsome : (db.find? (fun c => c.pageUrl == u)).isSome :=
    List.find?_isSome.mpr ⟨c0, hc0, by simp [hcu]⟩
  obtain ⟨c, hc⟩ := Option.isSome_iff_exists.mp hsome
  exact ⟨c, hc, hall c (List.mem_of_find?_eq_some hc) (by simpa using List.find?_some hc)⟩

/-- Invariant of the per-page loop: the db stays well formed, any page already
in sync stays in sync, and every processed url ends in sync. -/
lemma process_pages_sync (env : BuildEnv)
    (hembedlen : ∀ ts l, env.embedBatch ts = .ok l → l.length = ts.length)
    (henc : ∀ t, env.encode t = [] → t = "") :
    ∀ (urls : List String) (db : List Chunk) (p s : Nat) {db2 : List Chunk} {p2 s2 : Nat},
      process_pages env db p s urls = .ok (db2, p2, s2) →
      db_wf db →
      (∀ u ∈ urls, '#' ∉ u.data) →
      db_wf db2
      ∧ (∀ u : String, page_in_sync env db u → page_in_sync env db2 u)
      ∧ (∀ u ∈ urls, page_in_sync env db2 u) := by
  intro urls
  induction urls with
  | nil =>
    intro db p s db2 p2 s2 h hwf _
    rw [process_pages] at h
    have h1 : (db, p, s) = (db2, p2, s2) := (Except.ok.injEq _ _).mp h
    have hdb2 : db = db2 := congrArg Prod.fst h1
    subst hdb2
    exact ⟨hwf, fun _ hu => hu, fun u hu => absurd hu (List.not_mem_nil u)⟩
  | cons url rest ih =>
    intro db p s db2 p2 s2 h hwf hurls
    have hurl : '#' ∉ url.data := hurls url (List.mem_cons_self _ _)
    have hrest : ∀ u ∈ rest, '#' ∉ u.data := fun u hu => hurls u (List.mem_cons_of_mem _ hu)
    simp only [process_pages] at h
    by_cases hblank : str_strip (env.fetch url) = ""
    · rw [if_pos hblank] at h
      obtain ⟨hwf2, hpres, hsyncs⟩ := ih db p s h hwf hrest
      refine ⟨hwf2, hpres, ?_⟩
      intro u hu
      rcases List.mem_cons.mp hu with rfl | hu2
      · exact Or.inl hblank
      · exact hsyncs u hu2
    · rw [if_neg hblank] at h
      cases hmatch : (match db.find? (fun c => c.pageUrl == url) with
          | some c => c.contentHash == env.sha256 (env.fetch url)
          | none => false) with
      | true =>
        rw [hmatch, if_pos rfl] at h
        obtain ⟨hwf2, hpres, hsyncs⟩ := ih db p (s + 1) h hwf hrest
        refine ⟨hwf2, hpres, ?_⟩
        intro u hu
        rcases List.mem_cons.mp hu with rfl | hu2
        · refine hpres u ?_
          cases hf : db.find? (fun c => c.pageUrl == u) with
          | none => rw [hf] at hmatch; cases hmatch
          | some c0 =>
            rw [hf] at hmatch
            refine Or.inr ⟨c0, hf, ?_⟩
            simpa using hmatch
        · exact hsyncs u hu2
      | false =>
        rw [hmatch] at h
        rw [if_neg (by simp)] at h
        cases hemb : env.embedBatch (split_text_into_chunks env (env.fetch url)) with
        | error e =>
          rw [hemb] at h
          exact absurd h (by simp)
        | ok embeddings =>
          rw [hemb] at h
          have hlen := hembedlen _ _ hemb
          have hchunks_ne : split_text_into_chunks env (env.fetch url) ≠ [] := by
            intro hnil
            have hempty := henc _ ((split_text_into_chunks_eq_nil_iff env _).1 hnil)
            exact hblank (by rw [hempty]; decide)
          have hnew_ne : page_chunks url (env.sha256 (env.fetch url))
              (split_text_into_chunks env (env.fetch url)) embeddings ≠ [] :=
            page_chunks_ne_nil hlen hchunks_ne
          have hnew_url : ∀ n ∈ page_chunks url (env.sha256 (env.fetch url))
              (split_text_into_chunks env (env.fetch url)) embeddings, n.pageUrl = url :=
            fun n hn => (mem_page_chunks hn).1
          have hnew_hash : ∀ n ∈ page_chunks url (env.sha256 (env.fetch url))
              (split_text_into_chunks env (env.fetch url)) embeddings,
              n.contentHash = env.sha256 (env.fetch url) :=
            fun n hn => (mem_page_chunks hn).2.1
          have hnew_wf : ∀ n ∈ page_chunks url (env.sha256 (env.fetch url))
              (split_text_into_chunks env (env.fetch url)) embeddings, chunk_id_wf n := by
            intro n hn
            obtain ⟨hnu, _, i, hni⟩ := mem_page_chunks hn
            exact ⟨⟨i, by rw [hni, hnu]⟩, by rw [hnu]; exact hurl⟩
          have hwf1 : db_wf (if (db.find? (fun c => c.pageUrl == url)).isSome then
              delete_vectors_by_url db [url] else db) := by
            by_cases hex : (db.find? (fun c => c.pageUrl == url)).isSome
            · rw [if_pos hex]
              intro c hc
              exact hwf c (mem_delete_vectors_by_url.mp hc).1
            · rw [if_neg hex]
              exact hwf
          have hsub1 : ∀ c ∈ (if (db.find? (fun c => c.pageUrl == url)).isSome then
              delete_vectors_by_url db [url] else db), c ∈ db := by
            intro c hc
            by_cases hex : (db.find? (fun c => c.pageUrl == url)).isSome
            · rw [if_pos hex] at hc
              exact (mem_delete_vectors_by_url.mp hc).1
            · rw [if_neg hex] at hc
              exact hc
          have hwf2' : db_wf (upsert_vectors_to_db
              (if (db.find? (fun c => c.pageUrl == url)).isSome then
                delete_vectors_by_url db [url] else db)
              (page_chunks url (env.sha256 (env.fetch url))
                (split_text_into_chunks env (env.fetch url)) embeddings)) := by
            intro c hc
            rcases mem_upsert_vectors_to_db _ _ c hc with h1 | h2
            · exact hwf1 c h1
            · exact hnew_wf c h2
          have hnc : ∀ c ∈ (if (db.find? (fun c => c.pageUrl == url)).isSome then
              delete_vectors_by_url db [url] else db), c.pageUrl ≠ url →
              ∀ n ∈ page_chunks url (env.sha256 (env.fetch url))
                (split_text_into_chunks env (env.fetch url)) embeddings, c.id ≠ n.id := by
            intro c hc hcu n hn
            obtain ⟨_, _, i, hni⟩ := mem_page_chunks hn
            rw [hni]
            exact wf_id_ne (hwf c (hsub1 c hc)) hurl hcu
          have hfind_pres : ∀ u : String, u ≠ url →
              (upsert_vectors_to_db
                (if (db.find? (fun c => c.pageUrl == url)).isSome then
                  delete_vectors_by_url db [url] else db)
                (page_chunks url (env.sha256 (env.fetch url))
                  (split_text_into_chunks env (env.fetch url)) embeddings)).find?
                  (fun c => c.pageUrl == u)
                = db.find? (fun c => c.pageUrl == u) := by
            intro u hneu
            rw [upsert_find?_preserved u _ _
              (fun n hn => by rw [hnew_url n hn]; exact fun hcontra => hneu hcontra.symm)
              (fun c hc hcu n hn => by
                refine hnc c hc ?_ n hn
                rw [hcu]
                exact hneu)]
            by_cases hex : (db.find? (fun c => c.pageUrl == url)).isSome
            · rw [if_pos hex]
              unfold delete_vectors_by_url
              refine find?_filter_of_imp db ?_
              intro x hx
              have hxu : x.pageUrl = u := by simpa using hx
              have hxne : x.pageUrl ∉ [url] := by
                rw [hxu]
                simpa using hneu
              simpa using hxne
            · rw [if_neg hex]
          have hfresh : page_in_sync env (upsert_vectors_to_db
              (if (db.find? (fun c => c.pageUrl == url)).isSome then
                delete_vectors_by_url db [url] else db)
              (page_chunks url (env.sha256 (env.fetch url))
                (split_text_into_chunks env (env.fetch url)) embeddings)) url := by
            refine Or.inr (sync_of_parts ?_ ?_)
            · exact upsert_exists_of_nonempty url _ _ hnew_ne hnew_url
            · intro c hc hcu
              rcases mem_upsert_vectors_to_db _ _ c hc with h1 | h2
              · exfalso
                by_cases hex : (db.find? (fun c => c.pageUrl == url)).isSome
                · rw [if_pos hex] at h1
                  have := (mem_delete_vectors_by_url.mp h1).2
                  exact this (by simp [hcu])
                · rw [if_neg hex] at h1
                  rw [Option.not_isSome_iff_eq_none] at hex
                  exact (List.find?_eq_none.mp hex c h1) (by simp [hcu])
              · exact hnew_hash c h2
          obtain ⟨hwf2, hpres2, hsyncs2⟩ := ih _ (p + 1) s h hwf2' hrest
          refine ⟨hwf2, ?_, ?_⟩
          · intro u hsync
            refine hpres2 u ?_
            by_cases hneu : u = url
            · rw [hneu]
              exact hfresh
            · rcases hsync with hb | ⟨c, hfu, hch⟩
              · exact Or.inl hb
              · exact Or.inr ⟨c, by rw [hfind_pres u hneu]; exact hfu, hch⟩
          · intro u hu
            rcases List.mem_cons.mp hu with rfl | hu2
            · exact hpres2 u hfresh
            · exact hsyncs2 u hu2

/-- A per-page loop over pages that are all in sync is a no-op on the db and
the processed counter; it only counts nonblank pages as skipped. -/
lemma process_pages_all_sync (env : BuildEnv) :
    ∀ (urls : List String) (db : List Chunk) (p s : Nat),
      (∀ u ∈ urls, page_in_sync env db u) →
      process_pages env db p s urls
        = .ok (db, p, s + (urls.filter (fun u => decide (str_strip (env.fetch u) ≠ ""))).length)
  | [], db, p, s, _ => by simp [process_pages]
  | url :: rest, db, p, s, hall => by
    have hurl := hall url (List.mem_cons_self _ _)
    have hrest : ∀ u ∈ rest, page_in_sync env db u :=
      fun u hu => hall u (List.mem_cons_of_mem _ hu)
    simp only [process_pages]
    by_cases hblank : str_strip (env.fetch url) = ""
    · rw [if_pos hblank]
      rw [process_pages_all_sync env rest db p s hrest]
      rw [List.filter_cons, if_neg (by simp [hblank])]
    · rw [if_neg hblank]
      rcases hurl with hb | ⟨c, hf, hch⟩
      · exact absurd hb hblank
      · have hm : (match db.find? (fun c => c.pageUrl == url) with
            | some c => c.contentHash == env.sha256 (env.fetch url)
            | none => false) = true := by
          rw [hf]
          simpa using hch
        rw [hm, if_pos rfl]
        rw [process_pages_all_sync env rest db p (s + 1) hrest]
        rw [List.filter_cons, if_pos (by simpa using hblank), List.length_cons]
        have harith : s + 1
              + (rest.filter (fun u => decide (str_strip (env.fetch u) ≠ ""))).length
            = s + ((rest.filter (fun u => decide (str_strip (env.fetch u) ≠ ""))).length + 1) := by
          omega
        rw [harith]

/-- C3: rebuilding with an unchanged crawl set and unchanged page contents is
idempotent: for each url the sampled stored chunk hash matches the fresh hash,
so the page is skipped and counted, the second run processes and deletes
nothing, and the vector db (all chunk ids and embeddings) is untouched.  The
hypotheses record that crawled urls carry no hash sign, that the starting db
has well-formed chunk ids, that the embedder returns one vector per input, and
that only the empty string tokenizes to nothing. -/
theorem claim_C3 (env : BuildEnv) (siteUrl : String) (db0 : List Chunk)
    (bm0 : Option BM25Data) (out1 : BuildOutput)
    (hurls : ∀ u ∈ env.crawl siteUrl, '#' ∉ u.data)
    (hdb0 : db_wf db0)
    (hembedlen : ∀ ts l, env.embedBatch ts = .ok l → l.length = ts.length)
    (henc : ∀ t, env.encode t = [] → t = "")
    (hne : env.crawl siteUrl ≠ [])
    (h1 : build_rag_from_path env siteUrl db0 bm0 = .ok out1) :
    ∃ out2, build_rag_from_path env siteUrl out1.db out1.bm25 = .ok out2
      ∧ out2.processedCount = 0
      ∧ out2.deletedCount = 0
      ∧ out2.db = out1.db
      ∧ out2.skippedCount = ((env.crawl siteUrl).filter
          (fun u => decide (str_strip (env.fetch u) ≠ ""))).length := by
  obtain ⟨db2, processed, skipped, hp, hout⟩ := build_ok_elim env siteUrl db0 bm0 out1 hne h1
  have hwf1 : db_wf (delete_vectors_by_url db0 (pages_to_delete db0 (env.crawl siteUrl))) :=
    fun c hc => hdb0 c (mem_delete_vectors_by_url.mp hc).1
  obtain ⟨hwf2, _, hsyncs⟩ := process_pages_sync env hembedlen henc
    (env.crawl siteUrl) _ 0 0 hp hwf1 hurls
  have hbase : ∀ c ∈ delete_vectors_by_url db0 (pages_to_delete db0 (env.crawl siteUrl)),
      c.pageUrl ∈ env.crawl siteUrl := by
    intro c hc
    obtain ⟨hc0, hnot⟩ := mem_delete_vectors_by_url.mp hc
    by_contra habs
    refine hnot ?_
    unfold pages_to_delete
    refine List.mem_filter.mpr ⟨?_, by simpa using habs⟩
    unfold get_all_pages_from_db
    exact List.mem_dedup.mpr (List.mem_map.mpr ⟨c, hc0, rfl⟩)
  have hdb2urls : ∀ c ∈ db2, c.pageUrl ∈ env.crawl siteUrl :=
    process_pages_pageUrl_invariant env (env.crawl siteUrl) _ _ 0 0 hp
      (fun _ hu => hu) hbase
  have htd2 : pages_to_delete db2 (env.crawl siteUrl) = [] := by
    unfold pages_to_delete
    rw [List.filter_eq_nil_iff]
    intro u hu
    unfold get_all_pages_from_db at hu
    obtain ⟨c, hc, hcu⟩ := List.mem_map.mp (List.mem_dedup.mp hu)
    rw [← hcu]
    simpa using hdb2urls c hc
  have hfalse : (env.crawl siteUrl).isEmpty = false := by
    rw [List.isEmpty_eq_false]; exact hne
  have hrun2 : build_rag_from_path env siteUrl db2 (build_and_save_bm25_index db2 bm0)
      = .ok ⟨[("status", PyVal.str "success"),
          ("message", PyVal.str (success_message 0
            ((env.crawl siteUrl).filter
              (fun u => decide (str_strip (env.fetch u) ≠ ""))).length 0))],
          db2, build_and_save_bm25_index db2 (build_and_save_bm25_index db2 bm0), 0,
          ((env.crawl siteUrl).filter
            (fun u => decide (str_strip (env.fetch u) ≠ ""))).length, 0⟩ := by
    simp only [build_rag_from_path, hfalse, Bool.false_eq_true, if_false]
    rw [build_db1_eq, htd2, delete_vectors_by_url_nil]
    rw [process_pages_all_sync env (env.crawl siteUrl) db2 0 0 hsyncs]
    simp
  subst hout
  exact ⟨_, hrun2, rfl, rfl, rfl, rfl⟩

theorem claim_C3_witness :
    (∀ u ∈ envW.crawl "s", '#' ∉ u.data)
    ∧ envW.crawl "s" ≠ []
    ∧ build_rag_from_path envW "s" [] none = .ok outW
    ∧ ∃ out2, build_rag_from_path envW "s" outW.db outW.bm25 = .ok out2
        ∧ out2.processedCount = 0
        ∧ out2.deletedCount = 0
        ∧ out2.db = outW.db
        ∧ out2.skippedCount = ((envW.crawl "s").filter
            (fun u => decide (str_strip (envW.fetch u) ≠ ""))).length :=
  ⟨by decide, by decide, rfl,
    claim_C3 envW "s" [] none outW (by decide)
      (fun c hc => absurd hc (List.not_mem_nil c))
      (by
        intro ts l hl
        have hok : Except.ok (ε := String) (ts.map (fun _ => ([0] : List ℚ)))
            = Except.ok l := hl
        have hmap := (Except.ok.injEq _ _).mp hok
        rw [← hmap, List.length_map])
      envW_encode_nil (by decide) rfl⟩

end RagSpec
